import Mathlib

/-!
Verification of the json-models engine (`src/index.js` / the TypedModel
module): a shallow embedding of the schema-driven model system as a
fuel-based interpreter over JavaScript-like values, together with proofs
about property inheritance (`allProps`), schema derivation (`getSchema`),
instance construction (the `TypedModel` constructor, `buildObject`,
`buildValue`, `buildArray`), bulk update (`setValues`) and serialization
(`modelAsObject`).

Conventions of the embedding:
* JavaScript values are the inductive `JsVal`; plain objects are ordered
  association lists, mirroring JS insertion order, and `undefined` is the
  explicit value `JsVal.undef`.
* A model class is its prototype chain: its own declaration (static
  `props` / static `schema` / class name) plus an optional parent chain.
* A thrown JS exception is `JsErr` (message plus the `traceback` field the
  builder stamps); computations run in `Res`, where `Res.spin` marks fuel
  exhaustion of the interpreter and is distinct from every thrown error.
* Zero-argument default producers are modelled by `Producer`: they either
  return a value or throw, which is exactly how the engine consumes them.
* `Date` objects are modelled by the argument string they were built from;
  the exact text of JavaScript's generic `toString` on non-primitive
  values is abstracted (it never matters to the properties proved here).
-/

/-- A thrown JavaScript error: its message and the `traceback` property the
builder stamps onto it (absent on a freshly thrown error). -/
structure JsErr where
  msg : String
  traceback : Option String
  deriving DecidableEq, Repr

/-- Result of running a piece of the engine: a value, a thrown error, or
`spin` when the interpreter's fuel ran out (a modelling artefact, distinct
from every JavaScript outcome). -/
inductive Res (α : Type) where
  | ok (a : α)
  | err (e : JsErr)
  | spin
  deriving Repr

namespace Res

def bind : Res α → (α → Res β) → Res β
  | .ok a, f => f a
  | .err e, _ => .err e
  | .spin, _ => .spin

instance : Monad Res where
  pure := .ok
  bind := Res.bind

@[simp] theorem bind_ok (a : α) (f : α → Res β) : bind (.ok a) f = f a := rfl

@[simp] theorem bind_err (e : JsErr) (f : α → Res β) :
    bind (.err e) f = .err e := rfl

@[simp] theorem bind_spin (f : α → Res β) : bind (.spin : Res α) f = .spin := rfl

@[simp] theorem pure_eq_ok (a : α) : (pure a : Res α) = .ok a := rfl

@[simp] theorem bind_eq_bind (x : Res α) (f : α → Res β) :
    x >>= f = bind x f := rfl

theorem bind_eq_ok {x : Res α} {f : α → Res β} {b : β} :
    bind x f = .ok b ↔ ∃ a, x = .ok a ∧ f a = .ok b := by
  cases x <;> simp [bind]

theorem bind_eq_err {x : Res α} {f : α → Res β} {e : JsErr} :
    bind x f = .err e ↔ x = .err e ∨ ∃ a, x = .ok a ∧ f a = .err e := by
  cases x <;> simp [bind]

end Res

mutual

/-- A JavaScript value as the engine sees one: primitives, `Date` objects
(kept as the string/argument they were constructed from), arrays, plain
objects (ordered field lists), model classes, model instances (their class
plus their own enumerable fields) and zero-argument functions used as
schema defaults. -/
inductive JsVal where
  | undef
  | null
  | bool (b : Bool)
  | num (n : Int)
  | str (s : String)
  | date (arg : String)
  | arr (elems : List JsVal)
  | obj (fields : List (String × JsVal))
  | clsV (m : ModelCls)
  | inst (m : ModelCls) (fields : List (String × JsVal))
  | fnV (p : Producer)

/-- A zero-argument default producer: it either returns a value or throws
an error with the given message. -/
inductive Producer where
  | ret (v : JsVal)
  | throwErr (msg : String)

/-- A model class, i.e. a subclass of `TypedModel`: its own declaration and
its parent model class (`none` means it extends `TypedModel` directly). -/
inductive ModelCls where
  | mk (decl : ClsDecl) (parent : Option ModelCls)

/-- One class declaration: the class name, its own static `props` (absent
when the class declares none) and its own static `schema` overrides. -/
inductive ClsDecl where
  | mk (name : String) (props : Option (List (String × JsVal)))
      (schema : Option (List (String × JsVal)))

end

namespace ClsDecl

def name : ClsDecl → String
  | .mk n _ _ => n

def props : ClsDecl → Option (List (String × JsVal))
  | .mk _ p _ => p

def schema : ClsDecl → Option (List (String × JsVal))
  | .mk _ _ s => s

end ClsDecl

namespace ModelCls

def decl : ModelCls → ClsDecl
  | .mk d _ => d

def parent : ModelCls → Option ModelCls
  | .mk _ p => p

/-- The class's name (`this.name`). -/
def jsName (m : ModelCls) : String := m.decl.name

/-- The class's own declared static `props` (no prototype-chain lookup). -/
def ownProps (m : ModelCls) : Option (List (String × JsVal)) := m.decl.props

/-- Static property lookup for `this.props`: JavaScript resolves a static
field through the class prototype chain, so an undeclared `props` falls
back to the nearest ancestor's. -/
def propsLookup : ModelCls → Option (List (String × JsVal))
  | .mk d p =>
    match d.props with
    | some l => some l
    | none => match p with
      | some par => propsLookup par
      | none => none

/-- Static property lookup for `this.schema` (prototype-chain resolution,
as for `propsLookup`). -/
def schemaLookup : ModelCls → Option (List (String × JsVal))
  | .mk d p =>
    match d.schema with
    | some l => some l
    | none => match p with
      | some par => schemaLookup par
      | none => none

/-- The proper base classes of a model class, nearest first, stopping
before `TypedModel` — the list `collectBaseProps` walks. -/
def bases : ModelCls → List ModelCls
  | .mk _ none => []
  | .mk _ (some p) => p :: bases p

end ModelCls

/-! ### JavaScript object primitives

Ordered association lists model plain objects: `jsSet` is property
assignment (overwrite in place, else append), `jsSpread` is the object
spread `\x7b...a, ...b\x7d`, `fromEntries` is `Object.fromEntries`. -/

/-- Read an own field of an object field list (`none` when absent). -/
def jsLookup : List (String × JsVal) → String → Option JsVal
  | [], _ => none
  | e :: rest, k => if e.1 = k then some e.2 else jsLookup rest k

/-- Property assignment `o[k] = v`: overwrite the value at the key's
original position, or append a new entry (an object JavaScript itself
builds never holds a key twice, so replacing the first occurrence is
exact). -/
def jsSet : List (String × JsVal) → String → JsVal → List (String × JsVal)
  | [], k, v => [(k, v)]
  | e :: rest, k, v => if e.1 = k then (k, v) :: rest else e :: jsSet rest k v

/-- The object spread `\x7b...a, ...b\x7d`: assign every entry of `b` onto `a`. -/
def jsSpread (a b : List (String × JsVal)) : List (String × JsVal) :=
  b.foldl (fun acc e => jsSet acc e.1 e.2) a

/-- `Object.fromEntries`: build an object by assigning the pairs in order. -/
def fromEntries (l : List (String × JsVal)) : List (String × JsVal) :=
  jsSpread [] l

/-- `util.mapObject`: map each entry through `f`, drop entries the mapper
turns into `undefined` (here: `none`), and rebuild via `fromEntries`. -/
def mapObject (o : List (String × JsVal))
    (f : String → JsVal → Option (String × JsVal)) : List (String × JsVal) :=
  fromEntries ((o.map (fun e => f e.1 e.2)).filterMap id)

/-- `util.isEmpty` on an object that is known to exist. -/
def isEmptyObj (o : List (String × JsVal)) : Bool := o.isEmpty

namespace JsVal

/-- JavaScript truthiness. -/
def truthy : JsVal → Bool
  | .undef => false
  | .null => false
  | .bool b => b
  | .num n => n ≠ 0
  | .str s => s ≠ ""
  | .date _ => true
  | .arr _ => true
  | .obj _ => true
  | .clsV _ => true
  | .inst _ _ => true
  | .fnV _ => true

/-- Is the value a string primitive (`typeof v === 'string'`)? -/
def isStr : JsVal → Bool
  | .str _ => true
  | _ => false

/-- Is the value a function (`typeof v === 'function'`)? Model classes are
functions in JavaScript, but the engine only asks this of schema
`default` fields, which are never classes in any declaration. -/
def isFn : JsVal → Bool
  | .fnV _ => true
  | .clsV _ => true
  | _ => false

end JsVal

/-- The `TypeError` raised by reading a property of `undefined`/`null` or
calling something that is not a function. -/
def typeError (what : String) : JsErr := { msg := what, traceback := none }

/-- Duck-typed property read `v.k`: throws on `undefined`/`null`, reads the
own fields of objects and instances, and yields `undefined` elsewhere
(none of the engine's key names collides with a built-in of a primitive's
prototype). -/
def sGetE (v : JsVal) (k : String) : Res JsVal :=
  match v with
  | .undef => .err (typeError ("cannot read properties of undefined: " ++ k))
  | .null => .err (typeError ("cannot read properties of null: " ++ k))
  | .obj fields => .ok ((jsLookup fields k).getD .undef)
  | .inst _ fields => .ok ((jsLookup fields k).getD .undef)
  | _ => .ok (.undef)

/-- Indexed read `v[k]` as the builder uses it on the raw input: like
`sGetE`, plus array/string indexing by a canonical decimal key. -/
def jsIndexE (v : JsVal) (k : String) : Res JsVal :=
  match v with
  | .undef => .err (typeError ("cannot read properties of undefined: " ++ k))
  | .null => .err (typeError ("cannot read properties of null: " ++ k))
  | .obj fields => .ok ((jsLookup fields k).getD .undef)
  | .inst _ fields => .ok ((jsLookup fields k).getD .undef)
  | .arr elems =>
    .ok (match k.toNat? with
      | some i => (elems.getD i .undef)
      | none => .undef)
  | .str s =>
    .ok (match k.toNat? with
      | some i =>
        match s.toList.get? i with
        | some c => .str (String.singleton c)
        | none => .undef
      | none => .undef)
  | _ => .ok (.undef)

/-- `Object.entries`: throws on `undefined`/`null`, lists the own fields of
objects and instances, enumerates arrays and strings by index, and yields
no entries on other primitives. -/
def jsEntriesE (v : JsVal) : Res (List (String × JsVal)) :=
  match v with
  | .undef => .err (typeError "cannot convert undefined to object")
  | .null => .err (typeError "cannot convert null to object")
  | .obj fields => .ok fields
  | .inst _ fields => .ok fields
  | .arr elems =>
    .ok (elems.enum.map (fun e => (toString e.1, e.2)))
  | .str s =>
    .ok (s.toList.enum.map (fun e => (toString e.1, JsVal.str (String.singleton e.2))))
  | _ => .ok []

/-- `Object.prototype.hasOwnProperty.call(v, k)`: throws on
`undefined`/`null`, checks own keys on objects/instances, indices on
arrays/strings, and is false on other primitives. -/
def hasOwnE (v : JsVal) (k : String) : Res Bool :=
  match v with
  | .undef => .err (typeError "cannot convert undefined to object")
  | .null => .err (typeError "cannot convert null to object")
  | .obj fields => .ok (fields.any (fun e => e.1 = k))
  | .inst _ fields => .ok (fields.any (fun e => e.1 = k))
  | .arr elems =>
    .ok (match k.toNat? with
      | some i => i < elems.length
      | none => false)
  | .str s =>
    .ok (match k.toNat? with
      | some i => i < s.length
      | none => false)
  | _ => .ok false

/-- `isModelClass(cls)`, i.e. `cls.prototype instanceof TypedModel`: reading
`.prototype` throws on `undefined`/`null`; every `ModelCls` value is a
proper subclass of `TypedModel`, and nothing else qualifies. -/
def isModelClassE (v : JsVal) : Res Bool :=
  match v with
  | .undef => .err (typeError "cannot read properties of undefined: prototype")
  | .null => .err (typeError "cannot read properties of null: prototype")
  | .clsV _ => .ok true
  | _ => .ok false

/-- JavaScript's generic string conversion `v.toString()` as the serializer
falls back to it. Only the numeric and boolean cases matter to the
engine's observable behaviour; the remaining cases are a deterministic
abstraction of the JavaScript text. -/
def jsToString : JsVal → String
  | .undef => "undefined"
  | .null => "null"
  | .bool b => if b then "true" else "false"
  | .num n => toString n
  | .str s => s
  | .date a => "[date " ++ a ++ "]"
  | .arr _ => "[array]"
  | .obj _ => "[object Object]"
  | .inst _ _ => "[object Object]"
  | .clsV m => "[class " ++ m.jsName ++ "]"
  | .fnV _ => "[function]"

/-- `new Date(x)`: kept abstract as the argument it was built from; a
`Date` passed back in clones to an equal `Date`. -/
def newDateJs : JsVal → JsVal
  | .str s => .date s
  | .date a => .date a
  | v => .date (jsToString v)

/-- A registered string format: its `load` and `dump` converter. -/
structure JsFormat where
  load : JsVal → Res JsVal
  dump : JsVal → Res JsVal

/-- The built-in `date` format: `load` is `str => str && new Date(str)`;
`dump` is `val => val && util.formatDate(val, 'yyyy-MM-dd')`, and the
`util` module shipped with the engine does not export `formatDate`, so a
truthy value makes `dump` throw a `TypeError`. -/
def dateFormat : JsFormat where
  load := fun v => .ok (if v.truthy then newDateJs v else v)
  dump := fun v =>
    if v.truthy then .err (typeError "util.formatDate is not a function")
    else .ok v

/-- The built-in `date-time` format: `load` is `str => str && new Date(str)`;
`dump` is `val => val && val.toISOString()`, which throws on a truthy
non-`Date` value. -/
def dateTimeFormat : JsFormat where
  load := fun v => .ok (if v.truthy then newDateJs v else v)
  dump := fun v =>
    if v.truthy then
      match v with
      | .date a => .ok (.str a)
      | _ => .err (typeError "val.toISOString is not a function")
    else .ok v

/-- The process-wide format registry as the module ships it: the `date` and
`date-time` formats registered at load time. -/
def builtinFormats : List (String × JsFormat) :=
  [("date", dateFormat), ("date-time", dateTimeFormat)]

/-- `FormatManager.find(name)`: `undefined` for a falsy name, else the
registry entry for the (string) name. -/
def findFormat (name : JsVal) : Option JsFormat :=
  if name.truthy then
    match name with
    | .str s => (builtinFormats.find? (fun e => e.1 = s)).map (·.2)
    | _ => none
  else none

/-- `FormatManager.loadValue(format, value)`: run the format's `load` when
one is registered, otherwise return the value unchanged. -/
def loadValueF (name : JsVal) (v : JsVal) : Res JsVal :=
  match findFormat name with
  | some f => f.load v
  | none => .ok v

/-! ### Schema composition (pure part) -/

/-- The fixed meta-schema URI constant in every derived schema. -/
def metaSchemaURI : String := "http://json-schema.org/schema#"

/-- `collectBaseProps(ModelCls)`: walk the base classes (nearest first,
stopping before `TypedModel`) and merge their `props` oldest-first, so
that nearer bases override; a base without `props` contributes the empty
spread. -/
def collectBaseProps (m : ModelCls) : List (String × JsVal) :=
  m.bases.reverse.foldl
    (fun acc b => jsSpread acc ((ModelCls.propsLookup b).getD [])) []

/-- `TypedModel.allProps`: base-class properties spread first, the class's
own (`this.props`) on top, and every entry mapped to `undefined` filtered
out. -/
def allProps (m : ModelCls) : List (String × JsVal) :=
  mapObject
    (jsSpread (collectBaseProps m) ((ModelCls.propsLookup m).getD []))
    (fun name value =>
      match value with
      | .undef => none
      | v => some (name, v))

/-- A monadic map over a list in `Res`, preserving order (used for the
`properties` mapper of `getSchema`). -/
def resMapList (l : List α) (f : α → Res β) : Res (List β) :=
  match l with
  | [] => .ok []
  | a :: rest => do
    let b ← f a
    let bs ← resMapList rest f
    .ok (b :: bs)

/-- The base fields of every derived schema document, before the static
`schema` overrides are spread on top. -/
def baseDoc (m : ModelCls) : List (String × JsVal) :=
  [("$schema", .str metaSchemaURI), ("$id", .str m.jsName),
   ("type", .str "object"), ("additionalProperties", .bool false)]

/-- The derived document before `properties` is assigned: base fields with
the static `schema` overrides spread on top. -/
def docBase (m : ModelCls) : List (String × JsVal) :=
  jsSpread (baseDoc m) ((ModelCls.schemaLookup m).getD [])

/-- Is the value exactly the string `k` (`v === 'k'`)? -/
def isStrEq (v : JsVal) (k : String) : Bool :=
  match v with
  | .str s => s = k
  | _ => false

/-- Is the value exactly `false` (used for `!== false` tests)? -/
def isFalseV : JsVal → Bool
  | .bool false => true
  | _ => false

/-- The filter step of `buildObject`: drop every property whose schema has
a truthy `readOnly`; reading `readOnly` off a `null` schema throws. -/
def resFilterProps (entries : List (String × JsVal)) :
    Res (List (String × JsVal)) :=
  match entries with
  | [] => .ok []
  | e :: rest => do
    let ro ← sGetE e.2 "readOnly"
    let tail ← resFilterProps rest
    .ok (if ro.truthy then tail else e :: tail)

/-- The filter step of `setValues`: keep a property when `values` has the
key as an own property and the schema's `readOnly` is not truthy (the
second test is short-circuited, as in `&&`). -/
def setValuesFilter (entries : List (String × JsVal)) (values : JsVal) :
    Res (List (String × JsVal)) :=
  match entries with
  | [] => .ok []
  | e :: rest => do
    let hw ← hasOwnE values e.1
    let keep ←
      if hw then do
        let ro ← sGetE e.2 "readOnly"
        .ok (!ro.truthy)
      else .ok false
    let tail ← setValuesFilter rest values
    .ok (if keep then e :: tail else tail)

/-- `refs[schema.$ref]` wrapped as the `type` of the substituted schema:
the lookup key must be a string present in `refs`, else `undefined`. -/
def resolveRef (refs : List (String × ModelCls)) (r : JsVal) : JsVal :=
  match r with
  | .str s =>
    match refs.find? (fun e => e.1 = s) with
    | some e => .clsV e.2
    | none => .undef
  | _ => (.undef)

/-- The default-substitution step at the top of `buildValue`: a missing
value is replaced by the schema's `default`, invoking a zero-argument
function default lazily (a model class as a default throws, as any class
called without `new`); a present value passes through. -/
def substDefault (schema0 value0 : JsVal) : Res JsVal :=
  match value0 with
  | .undef => do
    let d ← sGetE schema0 "default"
    match d with
    | .fnV (.ret v) => .ok v
    | .fnV (.throwErr msg) => .err { msg := msg, traceback := none }
    | .clsV _ =>
      .err (typeError "class constructor cannot be invoked without new")
    | v => .ok v
  | v => .ok v

/-- The `catch` block of `buildValue`: on the first catch (no `traceback`
on the error yet) stamp the error with the current path `name`; an already
stamped error re-propagates unchanged. -/
def stampTb (name : String) : Res α → Res α
  | .err e =>
    .err (match e.traceback with
      | none => { e with traceback := some name }
      | some _ => e)
  | r => r

mutual

/-- `TypedModel.getSchema(\x7b leaveModels \x7d)`: the base document
(`$schema`, `$id`, `type`, `additionalProperties: false`), the static
`schema` overrides spread on top, and — when the effective property set is
non-empty — `properties` assigned afterwards from `allProps`, expanding
model-typed properties into their own schema unless `leaveModels`. -/
def getSchemaF (fuel : Nat) (m : ModelCls) (leaveModels : Bool) : Res JsVal :=
  match fuel with
  | 0 => .spin
  | fuel + 1 =>
    if isEmptyObj (allProps m) then .ok (.obj (docBase m))
    else do
      let mapped ← mapSchemaPropsF fuel (allProps m) leaveModels
      .ok (.obj (jsSet (docBase m) "properties" (.obj (fromEntries mapped))))
termination_by structural fuel

/-- The `properties` mapper of `getSchema`: each property schema is kept
as-is, except that a model-typed one is replaced by that model's expanded
schema when `leaveModels` is false (note `isModelClass(value.type)` is
evaluated first and can throw). -/
def mapSchemaPropsF (fuel : Nat) (entries : List (String × JsVal))
    (leaveModels : Bool) : Res (List (String × JsVal)) :=
  match fuel with
  | 0 => .spin
  | fuel + 1 =>
    match entries with
    | [] => .ok []
    | e :: rest => do
      let t ← sGetE e.2 "type"
      let b ← isModelClassE t
      let v ← mapSchemaPropChoice fuel t e.2 (b && !leaveModels)
      let tail ← mapSchemaPropsF fuel rest leaveModels
      .ok ((e.1, v) :: tail)
termination_by structural fuel

/-- One mapped `properties` value: the nested expanded schema when the
property is model-typed and expansion was requested, else the property
schema unchanged. -/
def mapSchemaPropChoice (fuel : Nat) (t ps : JsVal) (expand : Bool) :
    Res JsVal :=
  match fuel with
  | 0 => .spin
  | fuel + 1 =>
    if expand then
      match t with
      | .clsV sub => getSchemaF fuel sub false
      | _ => .ok ps
    else .ok ps
termination_by structural fuel

/-- `buildObject(name, schema, values, refs)`: pass `values` through
unchanged when the schema has no truthy `properties` and
`additionalProperties !== false`; otherwise build each non-read-only
declared property from `values` via `buildValue`. -/
def buildObjectF (fuel : Nat) (name : String) (schema : JsVal)
    (values : JsVal) (refs : List (String × ModelCls)) : Res JsVal :=
  match fuel with
  | 0 => .spin
  | fuel + 1 => do
    let props ← sGetE schema "properties"
    let ap ← sGetE schema "additionalProperties"
    if !props.truthy && !(isFalseV ap) then .ok values
    else do
      let entries ← jsEntriesE props
      let kept ← resFilterProps entries
      let out ← buildPropsF fuel name kept values refs []
      .ok (.obj out)
termination_by structural fuel

/-- The reduce step shared by `buildObject` and `setValues`: build each
kept property from `values[propName]` at path `name.propName` and assign
it onto the accumulator. -/
def buildPropsF (fuel : Nat) (name : String)
    (kept : List (String × JsVal)) (values : JsVal)
    (refs : List (String × ModelCls)) (acc : List (String × JsVal)) :
    Res (List (String × JsVal)) :=
  match fuel with
  | 0 => .spin
  | fuel + 1 =>
    match kept with
    | [] => .ok acc
    | e :: rest => do
      let v ← jsIndexE values e.1
      let bv ← buildValueF fuel (name ++ "." ++ e.1) e.2 v refs
      buildPropsF fuel name rest values refs (jsSet acc e.1 bv)
termination_by structural fuel

/-- `buildValue(name, schema, value, refs)`: substitute the schema default
for a missing value (invoking a function default lazily), resolve a bare
`$ref` against `refs`, then dispatch on the schema `type`: arrays (with
the empty-array fallback), plain pass-through of a still-missing value,
inline objects, nested model construction, string formats, and the
identity otherwise. Errors escaping the body are stamped with the current
path on their first catch. -/
def buildValueF (fuel : Nat) (name : String) (schema0 : JsVal)
    (value0 : JsVal) (refs : List (String × ModelCls)) : Res JsVal :=
  match fuel with
  | 0 => .spin
  | fuel + 1 =>
    stampTb name (do
      let value ← substDefault schema0 value0
      let t0 ← sGetE schema0 "type"
      let r0 ← sGetE schema0 "$ref"
      let sch :=
        if !t0.truthy && r0.truthy then JsVal.obj [("type", resolveRef refs r0)]
        else schema0
      let t ← sGetE sch "type"
      if isStrEq t "array" then
        match value with
        | .undef => .ok (.arr [])
        | v => buildArrayF fuel name sch v refs
      else
        match value with
        | .undef => .ok .undef
        | v =>
          if isStrEq t "object" then buildObjectF fuel name sch v refs
          else do
            let b ← isModelClassE t
            if b then
              match t with
              | .clsV sub => newModelF fuel sub v
              | _ => .ok v
            else
              if isStrEq t "string" then do
                let fmt ← sGetE sch "format"
                if fmt.truthy then loadValueF fmt v
                else .ok v
              else .ok v)
termination_by structural fuel

/-- `buildArray(name, schema, data, refs)`: map every element of `data`
through `buildValue` against `schema.items`, indexing the error path;
a non-array `data` has no `.map` and throws. -/
def buildArrayF (fuel : Nat) (name : String) (schema : JsVal)
    (data : JsVal) (refs : List (String × ModelCls)) : Res JsVal :=
  match fuel with
  | 0 => .spin
  | fuel + 1 =>
    match data with
    | .arr xs => do
      let items ← sGetE schema "items"
      let out ← buildElemsF fuel name items xs refs 0
      .ok (.arr out)
    | _ => .err (typeError "data.map is not a function")
termination_by structural fuel

/-- The element map of `buildArray`. -/
def buildElemsF (fuel : Nat) (name : String) (items : JsVal)
    (xs : List JsVal) (refs : List (String × ModelCls)) (idx : Nat) :
    Res (List JsVal) :=
  match fuel with
  | 0 => .spin
  | fuel + 1 =>
    match xs with
    | [] => .ok []
    | x :: rest => do
      let bv ← buildValueF fuel (name ++ "[" ++ toString idx ++ "]") items x refs
      let bs ← buildElemsF fuel name items rest refs (idx + 1)
      .ok (bv :: bs)
termination_by structural fuel

/-- The `TypedModel` constructor: default a falsy argument to `\x7b\x7d`,
derive the unexpanded schema, run `buildObject` at path `$`, and hand the
processed values to `setValues` on a fresh instance. -/
def newModelF (fuel : Nat) (m : ModelCls) (values0 : JsVal) : Res JsVal :=
  match fuel with
  | 0 => .spin
  | fuel + 1 => do
    let values := if values0.truthy then values0 else .obj []
    let schema ← getSchemaF fuel m true
    let processed ← buildObjectF fuel "$" schema values [("#", m)]
    let fields ← setValuesCoreF fuel m [] processed
    .ok (.inst m fields)
termination_by structural fuel

/-- `TypedModel.setValues(values)` over an instance whose own fields are
`curFields`: recompute the unexpanded schema; in the pass-through case use
`values` as the processed object, otherwise convert exactly the
non-read-only declared properties present in `values`; finally assign
every entry of the processed object onto the instance. -/
def setValuesCoreF (fuel : Nat) (m : ModelCls)
    (curFields : List (String × JsVal)) (values : JsVal) :
    Res (List (String × JsVal)) :=
  match fuel with
  | 0 => .spin
  | fuel + 1 => do
    let schema ← getSchemaF fuel m true
    let props ← sGetE schema "properties"
    let ap ← sGetE schema "additionalProperties"
    let processed ←
      if !props.truthy && !(isFalseV ap) then .ok values
      else do
        let entries ← jsEntriesE props
        let kept ← setValuesFilter entries values
        let out ← buildPropsF fuel "$" kept values [("#", m)] []
        .ok (.obj out)
    let pEntries ← jsEntriesE processed
    .ok (pEntries.foldl (fun fs e => jsSet fs e.1 e.2) curFields)
termination_by structural fuel

end

/-- `instance.setValues(values)` as invoked on an existing model value. -/
def setValuesF (fuel : Nat) (model : JsVal) (values : JsVal) : Res JsVal :=
  match model with
  | .inst m fields => do
    let fields2 ← setValuesCoreF fuel m fields values
    .ok (.inst m fields2)
  | _ => .err (typeError "setValues called on a non-model value")

mutual

/-- `modelAsObject(model)`: derive the expanded schema; in the ANY
pass-through case spread the instance's own fields; otherwise serialize
every effective property — `undefined`/`null` pass through, nested model
values recurse, non-string values of string-typed properties go through
the format's `dump` or the generic string conversion, and everything else
is passed unchanged. -/
def modelAsObjectF (fuel : Nat) (model : JsVal) : Res JsVal :=
  match fuel with
  | 0 => .spin
  | fuel + 1 =>
    match model with
    | .inst m fields => do
      let schema ← getSchemaF fuel m false
      let props ← sGetE schema "properties"
      let ap ← sGetE schema "additionalProperties"
      if !props.truthy && !(isFalseV ap) then .ok (.obj fields)
      else do
        let out ← serializePropsF fuel fields (allProps m) []
        .ok (.obj out)
    | .undef => .err (typeError "cannot read properties of undefined: constructor")
    | .null => .err (typeError "cannot read properties of null: constructor")
    | _ => .err (typeError "model.constructor.getSchema is not a function")
termination_by structural fuel

/-- The reduce step of `modelAsObject` over the effective properties. -/
def serializePropsF (fuel : Nat) (fields : List (String × JsVal))
    (entries : List (String × JsVal)) (acc : List (String × JsVal)) :
    Res (List (String × JsVal)) :=
  match fuel with
  | 0 => .spin
  | fuel + 1 =>
    match entries with
    | [] => .ok acc
    | e :: rest => do
      let processed ← serializeValF fuel e.2 ((jsLookup fields e.1).getD .undef)
      serializePropsF fuel fields rest (jsSet acc e.1 processed)
termination_by structural fuel

/-- One serialized property value of `modelAsObject`:
`undefined`/`null` pass through, nested model values recurse, non-string
values of string-typed properties go through the format's `dump` or the
generic string conversion, and everything else is unchanged. -/
def serializeValF (fuel : Nat) (ps value : JsVal) : Res JsVal :=
  match fuel with
  | 0 => .spin
  | fuel + 1 =>
    match value with
    | .undef => .ok JsVal.undef
    | .null => .ok JsVal.null
    | v => do
      let t ← sGetE ps "type"
      let b ← isModelClassE t
      if b then modelAsObjectF fuel v
      else
        if isStrEq t "string" && !v.isStr then do
          let fmtName ← sGetE ps "format"
          match findFormat fmtName with
          | some f => f.dump v
          | none => .ok (if v.truthy then .str (jsToString v) else v)
        else .ok v
termination_by structural fuel

end

/-- `instance.asObject()` (and the static `asObject` is construction
followed by this). -/
def asObjectF (fuel : Nat) (model : JsVal) : Res JsVal :=
  modelAsObjectF fuel model

/-! ### Basic lemmas about the object primitives -/

/-- The keys of an object field list, in order. -/
def keysOf (l : List (String × JsVal)) : List String := l.map Prod.fst

/-- Key lists without duplicates: the invariant of every object JavaScript
itself can produce. -/
def NodupKeys (l : List (String × JsVal)) : Prop := (keysOf l).Nodup

@[simp] theorem keysOf_nil : keysOf [] = [] := rfl

@[simp] theorem keysOf_cons (e : String × JsVal) (l : List (String × JsVal)) :
    keysOf (e :: l) = e.1 :: keysOf l := rfl

@[simp] theorem jsLookup_nil (k : String) : jsLookup [] k = none := rfl

theorem jsLookup_cons (e : String × JsVal) (l : List (String × JsVal)) (k : String) :
    jsLookup (e :: l) k = if e.1 = k then some e.2 else jsLookup l k := rfl

theorem jsLookup_eq_none (l : List (String × JsVal)) (k : String)
    (h : k ∉ keysOf l) : jsLookup l k = none := by
  induction l with
  | nil => rfl
  | cons e rest ih =>
    simp only [keysOf_cons, List.mem_cons, not_or] at h
    rw [jsLookup_cons, if_neg (fun hc => h.1 hc.symm)]
    exact ih h.2

theorem keysOf_mem_of_lookup {l : List (String × JsVal)} {k : String} {v : JsVal}
    (h : jsLookup l k = some v) : k ∈ keysOf l := by
  induction l with
  | nil => simp at h
  | cons e rest ih =>
    rw [jsLookup_cons] at h
    by_cases he : e.1 = k
    · simp [he]
    · rw [if_neg he] at h
      exact List.mem_cons_of_mem _ (ih h)

theorem lookup_mem {l : List (String × JsVal)} {k : String} {v : JsVal}
    (h : jsLookup l k = some v) : (k, v) ∈ l := by
  induction l with
  | nil => simp at h
  | cons e rest ih =>
    rw [jsLookup_cons] at h
    split at h
    · next heq =>
        injection h with hv
        exact List.mem_cons.mpr (Or.inl (by rw [← heq, ← hv]))
    · exact List.mem_cons_of_mem _ (ih h)

theorem jsLookup_eq_some_of_mem {l : List (String × JsVal)} {k : String} {v : JsVal}
    (hnd : NodupKeys l) (h : (k, v) ∈ l) : jsLookup l k = some v := by
  induction l with
  | nil => simp at h
  | cons e rest ih =>
    unfold NodupKeys at hnd
    simp only [keysOf_cons, List.nodup_cons] at hnd
    rcases List.mem_cons.mp h with h1 | h2
    · rw [← h1, jsLookup_cons, if_pos rfl]
    · rw [jsLookup_cons]
      have hne : e.1 ≠ k := by
        intro hc
        exact hnd.1 (hc ▸ List.mem_map_of_mem Prod.fst h2)
      rw [if_neg hne]
      exact ih hnd.2 h2

theorem keysOf_jsSet (l : List (String × JsVal)) (k : String) (v : JsVal) :
    keysOf (jsSet l k v) = if k ∈ keysOf l then keysOf l else keysOf l ++ [k] := by
  induction l with
  | nil => simp [jsSet]
  | cons e rest ih =>
    unfold jsSet
    by_cases he : e.1 = k
    · simp [he]
    · simp only [if_neg he, keysOf_cons]
      rw [ih]
      by_cases hm : k ∈ keysOf rest
      · rw [if_pos hm, if_pos (by simp [hm])]
      · rw [if_neg hm, if_neg (by
          simp only [List.mem_cons, not_or]
          exact ⟨fun hc => he hc.symm, hm⟩), List.cons_append]

theorem nodupKeys_jsSet {l : List (String × JsVal)} (k : String) (v : JsVal)
    (h : NodupKeys l) : NodupKeys (jsSet l k v) := by
  unfold NodupKeys
  rw [keysOf_jsSet]
  by_cases hm : k ∈ keysOf l
  · rw [if_pos hm]; exact h
  · rw [if_neg hm]
    simpa [List.nodup_append] using ⟨h, fun hc => hm hc⟩

theorem lookup_jsSet_self (l : List (String × JsVal)) (k : String) (v : JsVal) :
    jsLookup (jsSet l k v) k = some v := by
  induction l with
  | nil => rw [show jsSet [] k v = [(k, v)] from rfl, jsLookup_cons, if_pos rfl]
  | cons e rest ih =>
    unfold jsSet
    by_cases he : e.1 = k
    · rw [if_pos he, jsLookup_cons, if_pos rfl]
    · rw [if_neg he, jsLookup_cons, if_neg he]
      exact ih

theorem lookup_jsSet_ne (l : List (String × JsVal)) (k k' : String) (v : JsVal)
    (h : k' ≠ k) : jsLookup (jsSet l k v) k' = jsLookup l k' := by
  induction l with
  | nil =>
    rw [show jsSet [] k v = [(k, v)] from rfl, jsLookup_cons,
      if_neg (fun hc => h hc.symm)]
  | cons e rest ih =>
    unfold jsSet
    by_cases he : e.1 = k
    · rw [if_pos he, jsLookup_cons, jsLookup_cons, if_neg (fun hc => h hc.symm),
        if_neg (by rw [he]; exact fun hc => h hc.symm)]
    · rw [if_neg he, jsLookup_cons, jsLookup_cons]
      by_cases he' : e.1 = k'
      · rw [if_pos he', if_pos he']
      · rw [if_neg he', if_neg he']
        exact ih

theorem lookup_jsSet (l : List (String × JsVal)) (k k' : String) (v : JsVal) :
    jsLookup (jsSet l k v) k' = if k' = k then some v else jsLookup l k' := by
  by_cases h : k' = k
  · rw [if_pos h, h, lookup_jsSet_self]
  · rw [if_neg h, lookup_jsSet_ne _ _ _ _ h]

/-- Assigning the value an object already holds at a key is a no-op. -/
theorem jsSet_eq_self {l : List (String × JsVal)} {k : String} {v : JsVal}
    (hl : jsLookup l k = some v) : jsSet l k v = l := by
  induction l with
  | nil => simp at hl
  | cons e rest ih =>
    rw [jsLookup_cons] at hl
    unfold jsSet
    split at hl
    · next heq =>
        injection hl with hv
        rw [if_pos heq, ← heq, ← hv]
    · next hne =>
        rw [if_neg hne, ih hl]

/-- Assignment of a fresh key appends the entry. -/
theorem jsSet_append_of_not_mem {l : List (String × JsVal)} {k : String}
    (v : JsVal) (h : k ∉ keysOf l) : jsSet l k v = l ++ [(k, v)] := by
  induction l with
  | nil => simp [jsSet]
  | cons e rest ih =>
    simp only [keysOf_cons, List.mem_cons, not_or] at h
    unfold jsSet
    rw [if_neg (fun hc => h.1 hc.symm), List.cons_append]
    congr 1
    exact ih h.2

/-- A fold of assignments leaves keys outside the assigned entries alone. -/
theorem lookup_foldl_jsSet_not_mem (entries : List (String × JsVal))
    (fs : List (String × JsVal)) (k : String) (h : k ∉ keysOf entries) :
    jsLookup (entries.foldl (fun acc e => jsSet acc e.1 e.2) fs) k = jsLookup fs k := by
  induction entries generalizing fs with
  | nil => rfl
  | cons e rest ih =>
    simp only [keysOf_cons, List.mem_cons, not_or] at h
    rw [List.foldl_cons, ih _ h.2, lookup_jsSet_ne _ _ _ _ (fun hc => h.1 hc)]

theorem keysOf_foldl_jsSet_subset (entries : List (String × JsVal))
    (fs : List (String × JsVal)) (k : String)
    (h : k ∈ keysOf (entries.foldl (fun acc e => jsSet acc e.1 e.2) fs)) :
    k ∈ keysOf fs ∨ k ∈ keysOf entries := by
  induction entries generalizing fs with
  | nil => exact Or.inl h
  | cons e rest ih =>
    rw [List.foldl_cons] at h
    rcases ih _ h with h1 | h2
    · rw [keysOf_jsSet] at h1
      by_cases hm : e.1 ∈ keysOf fs
      · rw [if_pos hm] at h1; exact Or.inl h1
      · rw [if_neg hm] at h1
        rcases List.mem_append.mp h1 with h3 | h4
        · exact Or.inl h3
        · simp only [List.mem_singleton] at h4
          exact Or.inr (by simp [h4])
    · exact Or.inr (by simp [h2])

@[simp] theorem jsSpread_nil (a : List (String × JsVal)) : jsSpread a [] = a := rfl

theorem jsSpread_cons (a : List (String × JsVal)) (e : String × JsVal)
    (b : List (String × JsVal)) :
    jsSpread a (e :: b) = jsSpread (jsSet a e.1 e.2) b := rfl

theorem nodupKeys_jsSpread {a : List (String × JsVal)} (b : List (String × JsVal))
    (h : NodupKeys a) : NodupKeys (jsSpread a b) := by
  induction b generalizing a with
  | nil => exact h
  | cons e rest ih => exact ih (nodupKeys_jsSet _ _ h)

theorem lookup_jsSpread_not_mem (a b : List (String × JsVal)) (k : String)
    (h : k ∉ keysOf b) : jsLookup (jsSpread a b) k = jsLookup a k :=
  lookup_foldl_jsSet_not_mem b a k h

theorem nodupKeys_nil : NodupKeys [] := by simp [NodupKeys]

theorem nodupKeys_fromEntries (l : List (String × JsVal)) :
    NodupKeys (fromEntries l) := nodupKeys_jsSpread l nodupKeys_nil

theorem jsSpread_append_of_nodup (l : List (String × JsVal)) :
    ∀ a : List (String × JsVal), NodupKeys (a ++ l) → jsSpread a l = a ++ l := by
  induction l with
  | nil => intro a _; simp
  | cons e rest ih =>
    intro a ha
    have hnotmem : e.1 ∉ keysOf a := by
      unfold NodupKeys at ha
      simp only [keysOf, List.map_append, List.nodup_append] at ha
      intro hc
      exact ha.2.2 hc (by simp [keysOf])
    rw [jsSpread_cons, jsSet_append_of_not_mem _ hnotmem]
    have := ih (a ++ [e]) (by simpa using ha)
    simpa using this

/-- `Object.fromEntries` of a duplicate-free entry list is the list itself. -/
theorem fromEntries_eq_self {l : List (String × JsVal)} (h : NodupKeys l) :
    fromEntries l = l := by
  unfold fromEntries
  simpa using jsSpread_append_of_nodup l [] (by simpa [NodupKeys, keysOf] using h)

theorem nodupKeys_mapObject (o : List (String × JsVal))
    (f : String → JsVal → Option (String × JsVal)) : NodupKeys (mapObject o f) :=
  nodupKeys_fromEntries _

theorem nodupKeys_allProps (m : ModelCls) : NodupKeys (allProps m) :=
  nodupKeys_mapObject _ _

theorem jsLookup_none_iff (l : List (String × JsVal)) (k : String) :
    jsLookup l k = none ↔ k ∉ keysOf l := by
  constructor
  · intro h hm
    induction l with
    | nil => simp at hm
    | cons e rest ih =>
      rw [jsLookup_cons] at h
      rcases List.mem_cons.mp hm with h1 | h2
      · rw [if_pos h1.symm] at h; simp at h
      · by_cases he : e.1 = k
        · rw [if_pos he] at h; simp at h
        · rw [if_neg he] at h; exact ih h h2
  · exact jsLookup_eq_none l k

/-- Spreading an object over anything reproduces the object's own entries
(for a duplicate-free right operand, i.e. any real JavaScript object). -/
theorem lookup_jsSpread_mem (b : List (String × JsVal)) :
    ∀ (a : List (String × JsVal)) (k : String) (v : JsVal), NodupKeys b →
      jsLookup b k = some v → jsLookup (jsSpread a b) k = some v := by
  induction b with
  | nil => intro a k v _ h; simp at h
  | cons e rest ih =>
    intro a k v hnd h
    unfold NodupKeys at hnd
    simp only [keysOf_cons, List.nodup_cons] at hnd
    rw [jsLookup_cons] at h
    rw [jsSpread_cons]
    by_cases he : e.1 = k
    · rw [if_pos he] at h
      injection h with hv
      have hk : k ∉ keysOf rest := fun hc => hnd.1 (he ▸ hc)
      rw [lookup_jsSpread_not_mem _ _ _ hk, ← he, ← hv, lookup_jsSet_self]
    · rw [if_neg he] at h
      exact ih _ _ _ hnd.2 h

/-- Spreading the same duplicate-free object twice is the same as once. -/
theorem jsSpread_respread (Y : List (String × JsVal)) :
    ∀ X : List (String × JsVal), NodupKeys Y →
      jsSpread (jsSpread X Y) Y = jsSpread X Y := by
  induction Y with
  | nil => intro X _; simp
  | cons e rest ih =>
    intro X hY
    unfold NodupKeys at hY
    simp only [keysOf_cons, List.nodup_cons] at hY
    have hk : e.1 ∉ keysOf rest := fun hc => hY.1 hc
    rw [jsSpread_cons, jsSpread_cons]
    have hfix : jsSet (jsSpread (jsSet X e.1 e.2) rest) e.1 e.2
        = jsSpread (jsSet X e.1 e.2) rest := by
      apply jsSet_eq_self
      rw [lookup_jsSpread_not_mem _ _ _ hk, lookup_jsSet_self]
    rw [hfix]
    exact ih (jsSet X e.1 e.2) hY.2

/-- A chain-structured induction principle for model classes (the mutual
family blocks the default `induction` tactic). -/
theorem ModelCls.chainInduction {P : ModelCls → Prop}
    (h : ∀ d p, (∀ par, p = some par → P par) → P (.mk d p)) : ∀ m, P m
  | .mk d none => h d none (fun _ hp => by cases hp)
  | .mk d (some par) => h d (some par) (fun par' hp => by
      cases hp
      exact ModelCls.chainInduction h par)

/-! ### The effective property set: source vs. specification -/

/-- Is an optional static declaration duplicate-free? -/
def optNodup : Option (List (String × JsVal)) → Bool
  | some l => decide ((keysOf l).Nodup)
  | none => true

/-- Well-formedness of a model declaration chain: every statically declared
`props` and `schema` object is duplicate-free — the invariant JavaScript
object literals always satisfy. -/
def wfCls : ModelCls → Bool
  | .mk d none => optNodup d.props && optNodup d.schema
  | .mk d (some par) => optNodup d.props && optNodup d.schema && wfCls par

theorem wfCls_parent {d : ClsDecl} {par : ModelCls}
    (h : wfCls (.mk d (some par)) = true) : wfCls par = true := by
  rw [show wfCls (.mk d (some par))
      = (optNodup d.props && optNodup d.schema && wfCls par) from rfl] at h
  simp only [Bool.and_eq_true] at h
  exact h.2

theorem wfCls_own {m : ModelCls} (h : wfCls m = true) :
    optNodup (ModelCls.ownProps m) = true ∧ optNodup (m.decl.schema) = true := by
  obtain ⟨d, p⟩ := m
  cases p with
  | none =>
    rw [show wfCls (.mk d none) = (optNodup d.props && optNodup d.schema) from rfl] at h
    simp only [Bool.and_eq_true] at h
    exact h
  | some par =>
    rw [show wfCls (.mk d (some par))
        = (optNodup d.props && optNodup d.schema && wfCls par) from rfl] at h
    simp only [Bool.and_eq_true] at h
    exact ⟨h.1.1, h.1.2⟩

theorem propsLookup_mk (d : ClsDecl) (p : Option ModelCls) :
    ModelCls.propsLookup (.mk d p)
      = match d.props with
        | some l => some l
        | none => match p with
          | some par => ModelCls.propsLookup par
          | none => none := by
  cases p <;> cases hd : d.props <;> simp [ModelCls.propsLookup, hd]

theorem schemaLookup_mk (d : ClsDecl) (p : Option ModelCls) :
    ModelCls.schemaLookup (.mk d p)
      = match d.schema with
        | some l => some l
        | none => match p with
          | some par => ModelCls.schemaLookup par
          | none => none := by
  cases p <;> cases hd : d.schema <;> simp [ModelCls.schemaLookup, hd]

theorem wfCls_props {m : ModelCls} {l : List (String × JsVal)}
    (h : wfCls m = true) (hp : ModelCls.propsLookup m = some l) : NodupKeys l := by
  induction m using ModelCls.chainInduction with
  | h d p ihp =>
    rw [propsLookup_mk] at hp
    cases hd : d.props with
    | some l0 =>
      rw [hd] at hp
      injection hp with hl
      have := (wfCls_own h).1
      unfold ModelCls.ownProps at this
      rw [show ModelCls.decl (.mk d p) = d from rfl, hd] at this
      simp only [optNodup, decide_eq_true_eq] at this
      exact hl ▸ this
    | none =>
      rw [hd] at hp
      cases p with
      | none => simp at hp
      | some par => exact ihp par rfl (wfCls_parent h) hp

theorem wfCls_schema {m : ModelCls} {l : List (String × JsVal)}
    (h : wfCls m = true) (hp : ModelCls.schemaLookup m = some l) : NodupKeys l := by
  induction m using ModelCls.chainInduction with
  | h d p ihp =>
    rw [schemaLookup_mk] at hp
    cases hd : d.schema with
    | some l0 =>
      rw [hd] at hp
      injection hp with hl
      have := (wfCls_own h).2
      rw [show ModelCls.decl (.mk d p) = d from rfl, hd] at this
      simp only [optNodup, decide_eq_true_eq] at this
      exact hl ▸ this
    | none =>
      rw [hd] at hp
      cases p with
      | none => simp at hp
      | some par => exact ihp par rfl (wfCls_parent h) hp

/-- The undeleted merged property mapping `buildObject` of `allProps` works
from: inherited properties spread first, `this.props` on top. -/
def allPropsRaw (m : ModelCls) : List (String × JsVal) :=
  jsSpread (collectBaseProps m) ((ModelCls.propsLookup m).getD [])

/-- The merged mapping as §4.2 of the spec words it: each ancestor's own
declared properties merged oldest-ancestor-first, the type's own declared
properties layered on top. -/
def specMergedRaw (m : ModelCls) : List (String × JsVal) :=
  jsSpread
    (m.bases.reverse.foldl
      (fun acc b => jsSpread acc ((ModelCls.ownProps b).getD [])) [])
    ((ModelCls.ownProps m).getD [])

/-- The effective property set as the spec words it: the merged mapping with
every entry whose final value is the absent sentinel removed entirely. -/
def specEffectiveProps (m : ModelCls) : List (String × JsVal) :=
  (specMergedRaw m).filter
    (fun e => match e.2 with | .undef => false | _ => true)

theorem collectBaseProps_parent (d : ClsDecl) (par : ModelCls) :
    collectBaseProps (.mk d (some par))
      = jsSpread (collectBaseProps par) ((ModelCls.propsLookup par).getD []) := by
  unfold collectBaseProps
  rw [show ModelCls.bases (.mk d (some par)) = par :: ModelCls.bases par from rfl]
  rw [List.reverse_cons, List.foldl_append]
  rfl

theorem allPropsRaw_parent (d : ClsDecl) (par : ModelCls) :
    allPropsRaw (.mk d (some par))
      = jsSpread (allPropsRaw par)
          ((ModelCls.propsLookup (.mk d (some par))).getD []) := by
  unfold allPropsRaw
  rw [collectBaseProps_parent]

theorem specMergedRaw_parent (d : ClsDecl) (par : ModelCls) :
    specMergedRaw (.mk d (some par))
      = jsSpread (specMergedRaw par)
          ((ModelCls.ownProps (.mk d (some par))).getD []) := by
  unfold specMergedRaw
  rw [show ModelCls.bases (.mk d (some par)) = par :: ModelCls.bases par from rfl]
  rw [List.reverse_cons, List.foldl_append]
  rfl

theorem nodupKeys_foldl_spread (g : ModelCls → List (String × JsVal))
    (bs : List ModelCls) :
    NodupKeys (bs.foldl (fun acc b => jsSpread acc (g b)) []) := by
  induction bs using List.reverseRecOn with
  | nil => exact nodupKeys_nil
  | append_singleton xs b ih =>
    rw [List.foldl_append, List.foldl_cons, List.foldl_nil]
    exact nodupKeys_jsSpread _ ih

theorem nodupKeys_collectBaseProps (m : ModelCls) :
    NodupKeys (collectBaseProps m) :=
  nodupKeys_foldl_spread _ _

theorem nodupKeys_allPropsRaw (m : ModelCls) : NodupKeys (allPropsRaw m) :=
  nodupKeys_jsSpread _ (nodupKeys_collectBaseProps m)

theorem nodupKeys_specMergedRaw (m : ModelCls) : NodupKeys (specMergedRaw m) :=
  nodupKeys_jsSpread _ (nodupKeys_foldl_spread _ _)

/-- Re-spreading a class's (chain-looked-up) `props` over its own spec-side
merge changes nothing: the chain lookup's entries are already contained in
the merge. -/
theorem specMergedRaw_absorb_lookup (m : ModelCls) (h : wfCls m = true) :
    jsSpread (specMergedRaw m) ((ModelCls.propsLookup m).getD [])
      = specMergedRaw m := by
  induction m using ModelCls.chainInduction with
  | h d p ihp =>
    cases hd : d.props with
    | some l =>
      have hlk : ModelCls.propsLookup (.mk d p) = some l := by
        rw [propsLookup_mk, hd]
      have hnd : NodupKeys l := wfCls_props h hlk
      rw [hlk]
      cases p with
      | none =>
        show jsSpread (specMergedRaw (.mk d none)) l = _
        unfold specMergedRaw
        rw [show ModelCls.bases (.mk d none) = [] from rfl]
        simp only [List.reverse_nil, List.foldl_nil]
        rw [show (ModelCls.ownProps (.mk d none)).getD [] = l by
          unfold ModelCls.ownProps; simp [ModelCls.decl, hd]]
        exact jsSpread_respread l [] hnd
      | some par =>
        rw [specMergedRaw_parent]
        rw [show (ModelCls.ownProps (.mk d (some par))).getD [] = l by
          unfold ModelCls.ownProps; simp [ModelCls.decl, hd]]
        exact jsSpread_respread l _ hnd
    | none =>
      cases p with
      | none =>
        have hlk : ModelCls.propsLookup (.mk d none) = none := by
          rw [propsLookup_mk, hd]
        rw [hlk]
        simp
      | some par =>
        have hlk : ModelCls.propsLookup (.mk d (some par))
            = ModelCls.propsLookup par := by
          rw [propsLookup_mk, hd]
        rw [hlk, specMergedRaw_parent]
        rw [show (ModelCls.ownProps (.mk d (some par))).getD [] = [] by
          unfold ModelCls.ownProps; simp [ModelCls.decl, hd]]
        rw [jsSpread_nil]
        exact ihp par rfl (wfCls_parent h)

/-- The engine's merged mapping agrees with the spec's merged mapping. -/
theorem allPropsRaw_eq_specMergedRaw (m : ModelCls) (h : wfCls m = true) :
    allPropsRaw m = specMergedRaw m := by
  induction m using ModelCls.chainInduction with
  | h d p ihp =>
    cases p with
    | none =>
      unfold allPropsRaw collectBaseProps specMergedRaw
      rw [show ModelCls.bases (.mk d none) = [] from rfl]
      simp only [List.reverse_nil, List.foldl_nil]
      rw [show ModelCls.propsLookup (.mk d none) = d.props by
            rw [propsLookup_mk]; cases hd : d.props <;> simp [hd],
          show ModelCls.ownProps (.mk d none) = d.props from rfl]
    | some par =>
      rw [allPropsRaw_parent, specMergedRaw_parent,
        ihp par rfl (wfCls_parent h)]
      cases hd : d.props with
      | some l =>
        rw [show ModelCls.propsLookup (.mk d (some par)) = some l by
              rw [propsLookup_mk, hd],
            show ModelCls.ownProps (.mk d (some par)) = some l from by
              unfold ModelCls.ownProps; simp [ModelCls.decl, hd]]
      | none =>
        rw [show ModelCls.propsLookup (.mk d (some par))
              = ModelCls.propsLookup par by
              rw [propsLookup_mk, hd],
            show ModelCls.ownProps (.mk d (some par)) = none from by
              unfold ModelCls.ownProps; simp [ModelCls.decl, hd]]
        simp only [Option.getD_none, jsSpread_nil]
        exact specMergedRaw_absorb_lookup par (wfCls_parent h)

/-- `allProps` is the merged raw mapping with `undefined`-valued entries
filtered out. -/
theorem allProps_eq_filter_raw (m : ModelCls) :
    allProps m = (allPropsRaw m).filter
      (fun e => match e.2 with | .undef => false | _ => true) := by
  show mapObject (allPropsRaw m) _ = _
  unfold mapObject
  have hmap : ((allPropsRaw m).map
        (fun e => match e.2 with
          | .undef => none
          | v => some (e.1, v))).filterMap id
      = (allPropsRaw m).filter
        (fun e => match e.2 with | .undef => false | _ => true) := by
    induction allPropsRaw m with
    | nil => rfl
    | cons e rest ih =>
      obtain ⟨n, v⟩ := e
      cases v <;> simp_all [List.filterMap_cons, List.filter_cons]
  rw [hmap]
  apply fromEntries_eq_self
  have hsub : ((allPropsRaw m).filter
      (fun e => match e.2 with | .undef => false | _ => true)).Sublist (allPropsRaw m) :=
    List.filter_sublist _
  exact List.Nodup.sublist (List.Sublist.map Prod.fst hsub) (nodupKeys_allPropsRaw m)

/-- Claim C1's merge, proved: the engine's `allProps` is exactly the
specification's effective property set. -/
theorem allProps_eq_specEffectiveProps (m : ModelCls) (h : wfCls m = true) :
    allProps m = specEffectiveProps m := by
  rw [allProps_eq_filter_raw, allPropsRaw_eq_specMergedRaw m h]
  rfl

/-! ### Extraction lemmas for the engine -/

/-- The total fragment of the duck-typed property read (what `sGetE`
returns whenever it does not throw). -/
def sGet0 (v : JsVal) (k : String) : JsVal :=
  match v with
  | .obj fields => (jsLookup fields k).getD .undef
  | .inst _ fields => (jsLookup fields k).getD .undef
  | _ => .undef

theorem sGetE_ok {v : JsVal} {k : String} {w : JsVal}
    (h : sGetE v k = .ok w) : w = sGet0 v k := by
  cases v <;> simp_all [sGetE, sGet0]

theorem sGetE_ok_of_ne {v : JsVal} (k : String)
    (h1 : v ≠ .undef) (h2 : v ≠ .null) : sGetE v k = .ok (sGet0 v k) := by
  cases v <;> simp_all [sGetE, sGet0]

@[simp] theorem sGetE_obj (fields : List (String × JsVal)) (k : String) :
    sGetE (.obj fields) k = .ok ((jsLookup fields k).getD .undef) := rfl

@[simp] theorem sGet0_obj (fields : List (String × JsVal)) (k : String) :
    sGet0 (.obj fields) k = (jsLookup fields k).getD .undef := rfl

/-- The total fragment of `hasOwnProperty`. -/
def hasOwn0 (v : JsVal) (k : String) : Bool :=
  match v with
  | .obj fields => fields.any (fun e => e.1 = k)
  | .inst _ fields => fields.any (fun e => e.1 = k)
  | .arr elems =>
    (match k.toNat? with
      | some i => i < elems.length
      | none => false)
  | .str s =>
    (match k.toNat? with
      | some i => i < s.length
      | none => false)
  | _ => false

theorem hasOwnE_ok {v : JsVal} {k : String} {b : Bool}
    (h : hasOwnE v k = .ok b) : b = hasOwn0 v k := by
  cases v <;> simp_all [hasOwnE, hasOwn0]

theorem mapSchemaPropsF_keys {entries : List (String × JsVal)} :
    ∀ {fuel : Nat} {lv : Bool} {l : List (String × JsVal)},
      mapSchemaPropsF fuel entries lv = .ok l → keysOf l = keysOf entries := by
  induction entries with
  | nil =>
    intro fuel lv l h
    cases fuel with
    | zero => simp [mapSchemaPropsF] at h
    | succ f =>
      simp only [mapSchemaPropsF] at h
      injection h with h
      rw [← h]
  | cons e rest ih =>
    intro fuel lv l h
    cases fuel with
    | zero => simp [mapSchemaPropsF] at h
    | succ f =>
      simp only [mapSchemaPropsF, Res.bind_eq_bind] at h
      rw [Res.bind_eq_ok] at h
      obtain ⟨t, _, h⟩ := h
      rw [Res.bind_eq_ok] at h
      obtain ⟨b, _, h⟩ := h
      rw [Res.bind_eq_ok] at h
      obtain ⟨v, _, h⟩ := h
      rw [Res.bind_eq_ok] at h
      obtain ⟨tail, htail, h⟩ := h
      simp only [Res.pure_eq_ok, Res.ok.injEq] at h
      rw [← h]
      show e.1 :: keysOf tail = e.1 :: keysOf rest
      rw [ih htail]

theorem mapSchemaPropChoice_false_ok {fuel : Nat} {t ps v : JsVal}
    (h : mapSchemaPropChoice fuel t ps false = .ok v) : v = ps := by
  cases fuel with
  | zero => simp [mapSchemaPropChoice] at h
  | succ f =>
    simp only [mapSchemaPropChoice, Bool.false_eq_true, if_false] at h
    injection h with h
    exact h.symm

theorem mapSchemaPropsF_true_ok {entries : List (String × JsVal)} :
    ∀ {fuel : Nat} {l : List (String × JsVal)},
      mapSchemaPropsF fuel entries true = .ok l → l = entries := by
  induction entries with
  | nil =>
    intro fuel l h
    cases fuel with
    | zero => simp [mapSchemaPropsF] at h
    | succ f =>
      simp only [mapSchemaPropsF] at h
      injection h with h
      exact h.symm
  | cons e rest ih =>
    intro fuel l h
    cases fuel with
    | zero => simp [mapSchemaPropsF] at h
    | succ f =>
      simp only [mapSchemaPropsF, Res.bind_eq_bind] at h
      rw [Res.bind_eq_ok] at h
      obtain ⟨t, _, h⟩ := h
      rw [Res.bind_eq_ok] at h
      obtain ⟨b, _, h⟩ := h
      rw [Res.bind_eq_ok] at h
      obtain ⟨v, hv, h⟩ := h
      rw [Res.bind_eq_ok] at h
      obtain ⟨tail, htail, h⟩ := h
      simp only [Res.pure_eq_ok, Res.ok.injEq] at h
      simp only [Bool.not_true, Bool.and_false] at hv
      rw [← h, ih htail, mapSchemaPropChoice_false_ok hv]

theorem getSchemaF_ok_empty {f : Nat} {m : ModelCls} {lv : Bool} {s : JsVal}
    (h : getSchemaF f m lv = .ok s) (he : allProps m = []) :
    s = .obj (docBase m) := by
  cases f with
  | zero => simp [getSchemaF] at h
  | succ f =>
    simp only [getSchemaF, isEmptyObj, he, List.isEmpty_nil, if_true] at h
    injection h with h
    exact h.symm

theorem getSchemaF_ok_props_true {f : Nat} {m : ModelCls} {s : JsVal}
    (h : getSchemaF f m true = .ok s) (hne : allProps m ≠ []) :
    s = .obj (jsSet (docBase m) "properties" (.obj (allProps m))) := by
  cases f with
  | zero => simp [getSchemaF] at h
  | succ f =>
    have hemp : isEmptyObj (allProps m) = false := by
      simp [isEmptyObj, List.isEmpty_iff, hne]
    simp only [getSchemaF, hemp, Bool.false_eq_true, if_false,
      Res.bind_eq_bind] at h
    rw [Res.bind_eq_ok] at h
    obtain ⟨mapped, hm, h⟩ := h
    injection h with h
    rw [← h, mapSchemaPropsF_true_ok hm,
      fromEntries_eq_self (nodupKeys_allProps m)]

theorem getSchemaF_ok_props_keys {f : Nat} {m : ModelCls} {lv : Bool} {s : JsVal}
    (h : getSchemaF f m lv = .ok s) (hne : allProps m ≠ []) :
    ∃ pf, NodupKeys pf ∧ keysOf pf = keysOf (allProps m) ∧
      s = .obj (jsSet (docBase m) "properties" (.obj pf)) := by
  cases f with
  | zero => simp [getSchemaF] at h
  | succ f =>
    have hemp : isEmptyObj (allProps m) = false := by
      simp [isEmptyObj, List.isEmpty_iff, hne]
    simp only [getSchemaF, hemp, Bool.false_eq_true, if_false,
      Res.bind_eq_bind] at h
    rw [Res.bind_eq_ok] at h
    obtain ⟨mapped, hm, h⟩ := h
    injection h with h
    have hkeys : keysOf mapped = keysOf (allProps m) := mapSchemaPropsF_keys hm
    have hnd : NodupKeys mapped := by
      unfold NodupKeys
      rw [hkeys]
      exact nodupKeys_allProps m
    refine ⟨mapped, hnd, hkeys, ?_⟩
    rw [← h, fromEntries_eq_self hnd]

theorem resFilterProps_ok {entries kept : List (String × JsVal)}
    (h : resFilterProps entries = .ok kept) :
    kept = entries.filter (fun e => !(sGet0 e.2 "readOnly").truthy) := by
  induction entries generalizing kept with
  | nil =>
    simp only [resFilterProps] at h
    injection h with h
    simp [← h]
  | cons e rest ih =>
    simp only [resFilterProps, Res.bind_eq_bind] at h
    rw [Res.bind_eq_ok] at h
    obtain ⟨ro, hro, h⟩ := h
    rw [Res.bind_eq_ok] at h
    obtain ⟨tail, htail, h⟩ := h
    injection h with h
    rw [← h, ih htail, List.filter_cons, sGetE_ok hro]
    by_cases ht : (sGet0 e.2 "readOnly").truthy
    · simp [ht]
    · simp [ht]

theorem setValuesFilter_ok {entries kept : List (String × JsVal)} {values : JsVal}
    (h : setValuesFilter entries values = .ok kept) :
    kept = entries.filter
      (fun e => hasOwn0 values e.1 && !(sGet0 e.2 "readOnly").truthy) := by
  induction entries generalizing kept with
  | nil =>
    simp only [setValuesFilter] at h
    injection h with h
    simp [← h]
  | cons e rest ih =>
    simp only [setValuesFilter, Res.bind_eq_bind] at h
    rw [Res.bind_eq_ok] at h
    obtain ⟨hw, hhw, h⟩ := h
    have hw0 : hw = hasOwn0 values e.1 := hasOwnE_ok hhw
    by_cases hwt : hw = true
    · rw [if_pos hwt] at h
      rw [Res.bind_eq_ok] at h
      obtain ⟨ro, hro, h⟩ := h
      simp only [Res.bind_ok] at h
      rw [Res.bind_eq_ok] at h
      obtain ⟨tail, htail, h⟩ := h
      injection h with h
      rw [← h, ih htail, List.filter_cons, sGetE_ok hro, ← hw0, hwt,
        Bool.true_and]
    · rw [if_neg hwt] at h
      simp only [Res.bind_ok] at h
      rw [Res.bind_eq_ok] at h
      obtain ⟨tail, htail, h⟩ := h
      simp only [Bool.false_eq_true, if_false, Res.ok.injEq] at h
      rw [← h, ih htail, List.filter_cons, ← hw0]
      simp only [Bool.not_eq_true] at hwt
      rw [hwt]
      simp

theorem buildPropsF_frame {kept : List (String × JsVal)} :
    ∀ {fuel : Nat} {name : String} {values : JsVal}
      {refs : List (String × ModelCls)} {acc out : List (String × JsVal)}
      {k : String},
      buildPropsF fuel name kept values refs acc = .ok out →
      k ∉ keysOf kept → jsLookup out k = jsLookup acc k := by
  induction kept with
  | nil =>
    intro fuel name values refs acc out k h _
    cases fuel with
    | zero => simp [buildPropsF] at h
    | succ f =>
      simp only [buildPropsF] at h
      injection h with h
      rw [h]
  | cons e rest ih =>
    intro fuel name values refs acc out k h hk
    cases fuel with
    | zero => simp [buildPropsF] at h
    | succ f =>
      simp only [buildPropsF, Res.bind_eq_bind] at h
      rw [Res.bind_eq_ok] at h
      obtain ⟨v, _, h⟩ := h
      rw [Res.bind_eq_ok] at h
      obtain ⟨bv, _, h⟩ := h
      simp only [keysOf_cons, List.mem_cons, not_or] at hk
      rw [ih h hk.2, lookup_jsSet_ne _ _ _ _ hk.1]

theorem buildPropsF_keys {kept : List (String × JsVal)} :
    ∀ {fuel : Nat} {name : String} {values : JsVal}
      {refs : List (String × ModelCls)} {acc out : List (String × JsVal)}
      {k : String},
      buildPropsF fuel name kept values refs acc = .ok out →
      k ∈ keysOf out → k ∈ keysOf acc ∨ k ∈ keysOf kept := by
  induction kept with
  | nil =>
    intro fuel name values refs acc out k h hk
    cases fuel with
    | zero => simp [buildPropsF] at h
    | succ f =>
      simp only [buildPropsF] at h
      injection h with h
      exact Or.inl (h ▸ hk)
  | cons e rest ih =>
    intro fuel name values refs acc out k h hk
    cases fuel with
    | zero => simp [buildPropsF] at h
    | succ f =>
      simp only [buildPropsF, Res.bind_eq_bind] at h
      rw [Res.bind_eq_ok] at h
      obtain ⟨v, _, h⟩ := h
      rw [Res.bind_eq_ok] at h
      obtain ⟨bv, _, h⟩ := h
      rcases ih h hk with h1 | h2
      · rw [keysOf_jsSet] at h1
        by_cases hm : e.1 ∈ keysOf acc
        · rw [if_pos hm] at h1; exact Or.inl h1
        · rw [if_neg hm] at h1
          rcases List.mem_append.mp h1 with h3 | h4
          · exact Or.inl h3
          · simp only [List.mem_singleton] at h4
            exact Or.inr (by simp [h4])
      · exact Or.inr (by simp [h2])

theorem buildPropsF_nodup {kept : List (String × JsVal)} :
    ∀ {fuel : Nat} {name : String} {values : JsVal}
      {refs : List (String × ModelCls)} {acc out : List (String × JsVal)},
      buildPropsF fuel name kept values refs acc = .ok out →
      NodupKeys acc → NodupKeys out := by
  induction kept with
  | nil =>
    intro fuel name values refs acc out h hnd
    cases fuel with
    | zero => simp [buildPropsF] at h
    | succ f =>
      simp only [buildPropsF] at h
      injection h with h
      exact h ▸ hnd
  | cons e rest ih =>
    intro fuel name values refs acc out h hnd
    cases fuel with
    | zero => simp [buildPropsF] at h
    | succ f =>
      simp only [buildPropsF, Res.bind_eq_bind] at h
      rw [Res.bind_eq_ok] at h
      obtain ⟨v, _, h⟩ := h
      rw [Res.bind_eq_ok] at h
      obtain ⟨bv, _, h⟩ := h
      exact ih h (nodupKeys_jsSet _ _ hnd)

theorem buildPropsF_content {kept : List (String × JsVal)} :
    ∀ {fuel : Nat} {name : String} {values : JsVal}
      {refs : List (String × ModelCls)} {acc out : List (String × JsVal)}
      {k : String} {ps : JsVal},
      NodupKeys kept → (k, ps) ∈ kept →
      buildPropsF fuel name kept values refs acc = .ok out →
      ∃ fb v bv, jsIndexE values k = .ok v ∧
        buildValueF fb (name ++ "." ++ k) ps v refs = .ok bv ∧
        jsLookup out k = some bv := by
  induction kept with
  | nil => intro _ _ _ _ _ _ _ _ _ hm _; simp at hm
  | cons e rest ih =>
    intro fuel name values refs acc out k ps hnd hm h
    cases fuel with
    | zero => simp [buildPropsF] at h
    | succ f =>
      simp only [buildPropsF, Res.bind_eq_bind] at h
      rw [Res.bind_eq_ok] at h
      obtain ⟨v, hv, h⟩ := h
      rw [Res.bind_eq_ok] at h
      obtain ⟨bv, hbv, h⟩ := h
      unfold NodupKeys at hnd
      simp only [keysOf_cons, List.nodup_cons] at hnd
      rcases List.mem_cons.mp hm with h1 | h2
      · have he1 : e.1 = k := by rw [← h1]
        have he2 : e.2 = ps := by rw [← h1]
        have hkk : k ∉ keysOf rest := fun hc => hnd.1 (he1 ▸ hc)
        refine ⟨f, v, bv, he1 ▸ hv, ?_, ?_⟩
        · rw [← he1, ← he2]; exact hbv
        · rw [buildPropsF_frame h hkk, ← he1, lookup_jsSet_self]
      · exact ih hnd.2 h2 h

theorem nodupKeys_filter {l : List (String × JsVal)}
    (p : (String × JsVal) → Bool) (h : NodupKeys l) : NodupKeys (l.filter p) :=
  List.Nodup.sublist (List.Sublist.map Prod.fst (List.filter_sublist l)) h

theorem keysOf_filter_subset {l : List (String × JsVal)}
    {p : (String × JsVal) → Bool} {k : String}
    (h : k ∈ keysOf (l.filter p)) : k ∈ keysOf l := by
  unfold keysOf at h ⊢
  obtain ⟨e, he, hk⟩ := List.mem_map.mp h
  exact List.mem_map.mpr ⟨e, List.mem_of_mem_filter he, hk⟩

theorem keysOf_filter_not_mem {l : List (String × JsVal)}
    {p : (String × JsVal) → Bool} {k : String} {ps : JsVal}
    (hnd : NodupKeys l) (hl : jsLookup l k = some ps)
    (hp : p (k, ps) = false) : k ∉ keysOf (l.filter p) := by
  intro hc
  unfold keysOf at hc
  obtain ⟨e, he, hk⟩ := List.mem_map.mp hc
  have hmem := List.mem_of_mem_filter he
  have hpe := List.of_mem_filter he
  have : e = (k, ps) := by
    have h2 : jsLookup l e.1 = some e.2 := jsLookup_eq_some_of_mem hnd
      (by cases e; exact hmem)
    rw [hk, hl] at h2
    injection h2 with h2
    cases e
    simp_all
  rw [this, hp] at hpe
  simp at hpe

theorem mem_filter_of_lookup {l : List (String × JsVal)}
    {p : (String × JsVal) → Bool} {k : String} {ps : JsVal}
    (hl : jsLookup l k = some ps) (hp : p (k, ps) = true) :
    (k, ps) ∈ l.filter p :=
  List.mem_filter.mpr ⟨lookup_mem hl, hp⟩

/-- Characterization of `setValues` when the type has declared properties:
the assigned object is the `buildValue` pass over the non-read-only
properties with keys present in `values`, spread onto the current fields. -/
theorem setValuesCoreF_declared {f : Nat} {m : ModelCls}
    {cur : List (String × JsVal)} {values : JsVal} {flds : List (String × JsVal)}
    (hne : allProps m ≠ []) (h : setValuesCoreF f m cur values = .ok flds) :
    ∃ fb out, NodupKeys out ∧
      buildPropsF fb "$" ((allProps m).filter
          (fun e => hasOwn0 values e.1 && !(sGet0 e.2 "readOnly").truthy))
        values [("#", m)] [] = .ok out ∧
      flds = jsSpread cur out := by
  cases f with
  | zero => simp [setValuesCoreF] at h
  | succ f =>
    simp only [setValuesCoreF, Res.bind_eq_bind] at h
    rw [Res.bind_eq_ok] at h
    obtain ⟨s, hs, h⟩ := h
    have hshape := getSchemaF_ok_props_true hs hne
    subst hshape
    simp only [sGetE_obj, lookup_jsSet_self, Option.getD_some, Res.bind_ok] at h
    rw [if_neg (by simp [JsVal.truthy])] at h
    rw [show jsEntriesE (JsVal.obj (allProps m)) = .ok (allProps m) from rfl,
      Res.bind_ok] at h
    rw [Res.bind_eq_ok] at h
    obtain ⟨kept, hkept, h⟩ := h
    rw [Res.bind_eq_ok] at h
    obtain ⟨out, hout, h⟩ := h
    rw [show jsEntriesE (JsVal.obj out) = .ok out from rfl, Res.bind_ok] at h
    injection h with h
    refine ⟨f, out, buildPropsF_nodup hout nodupKeys_nil, ?_, h.symm⟩
    rw [setValuesFilter_ok hkept] at hout
    exact hout

/-- Characterization of construction when the type has declared
properties: a `buildValue` pass over the non-read-only properties against
the raw input, then the constructor's `setValues` re-pass over its own
output; the instance's fields are exactly the second pass's output. -/
theorem newModelF_declared {f : Nat} {m : ModelCls} {values0 r : JsVal}
    (hne : allProps m ≠ []) (h : newModelF f m values0 = .ok r) :
    ∃ fa fb p flds, NodupKeys p ∧ NodupKeys flds ∧
      buildPropsF fa "$" ((allProps m).filter
          (fun e => !(sGet0 e.2 "readOnly").truthy))
        (if values0.truthy then values0 else .obj []) [("#", m)] [] = .ok p ∧
      buildPropsF fb "$" ((allProps m).filter
          (fun e => hasOwn0 (.obj p) e.1 && !(sGet0 e.2 "readOnly").truthy))
        (.obj p) [("#", m)] [] = .ok flds ∧
      r = .inst m flds := by
  cases f with
  | zero => simp [newModelF] at h
  | succ f =>
    simp only [newModelF, Res.bind_eq_bind] at h
    rw [Res.bind_eq_ok] at h
    obtain ⟨s, hs, h⟩ := h
    have hshape := getSchemaF_ok_props_true hs hne
    subst hshape
    rw [Res.bind_eq_ok] at h
    obtain ⟨p0, hp0, h⟩ := h
    rw [Res.bind_eq_ok] at h
    obtain ⟨flds, hflds, h⟩ := h
    injection h with h
    cases f with
    | zero => simp [buildObjectF] at hp0
    | succ f2 =>
      simp only [buildObjectF, Res.bind_eq_bind, sGetE_obj,
        lookup_jsSet_self, Option.getD_some, Res.bind_ok] at hp0
      rw [if_neg (by simp [JsVal.truthy])] at hp0
      rw [show jsEntriesE (JsVal.obj (allProps m)) = .ok (allProps m) from rfl,
        Res.bind_ok] at hp0
      rw [Res.bind_eq_ok] at hp0
      obtain ⟨kept, hkept, hp0⟩ := hp0
      rw [Res.bind_eq_ok] at hp0
      obtain ⟨out, hout, hp0⟩ := hp0
      injection hp0 with hp0
      subst hp0
      obtain ⟨fb, out2, hnd2, hbp2, hflds2⟩ := setValuesCoreF_declared hne hflds
      have hout' : buildPropsF f2 "$" ((allProps m).filter
          (fun e => !(sGet0 e.2 "readOnly").truthy))
          (if values0.truthy then values0 else .obj []) [("#", m)] [] = .ok out := by
        rw [resFilterProps_ok hkept] at hout
        exact hout
      refine ⟨f2, fb, out, out2, buildPropsF_nodup hout nodupKeys_nil, hnd2,
        hout', hbp2, ?_⟩
      rw [← h, hflds2]
      rw [show jsSpread [] out2 = fromEntries out2 from rfl,
        fromEntries_eq_self hnd2]

/-- An own key an object holds is an own property. -/
theorem hasOwn0_of_lookup {p : List (String × JsVal)} {k : String} {bv : JsVal}
    (h : jsLookup p k = some bv) : hasOwn0 (.obj p) k = true := by
  simp only [hasOwn0]
  exact List.any_eq_true.mpr ⟨(k, bv), lookup_mem h, by simp⟩

@[simp] theorem stampTb_ok (name : String) (a : α) :
    stampTb name (.ok a : Res α) = .ok a := rfl

theorem stampTb_eq_ok {name : String} {r : Res α} {a : α} :
    stampTb name r = .ok a ↔ r = .ok a := by
  cases r <;> simp [stampTb]

/-- A present (non-`undefined`) value is untouched by default
substitution. -/
theorem substDefault_not_undef {s v : JsVal} (hv : v ≠ .undef) :
    substDefault s v = .ok v := by
  cases v <;> first | exact absurd rfl hv | rfl

/-- With no declared `default`, a missing value stays missing. -/
theorem substDefault_absent {pl : List (String × JsVal)}
    (hdef : sGet0 (.obj pl) "default" = .undef) :
    substDefault (.obj pl) .undef = .ok .undef := by
  have hdef' : (jsLookup pl "default").getD .undef = .undef := by
    rw [← sGet0_obj]; exact hdef
  simp [substDefault, sGetE_obj, hdef']

/-- A declared non-function `default` substitutes for a missing value. -/
theorem substDefault_decl {pl : List (String × JsVal)} {d : JsVal}
    (hd : jsLookup pl "default" = some d) (hfn : d.isFn = false) :
    substDefault (.obj pl) .undef = .ok d := by
  have hd' : (jsLookup pl "default").getD .undef = d := by rw [hd]; rfl
  cases d <;> simp_all [substDefault, sGetE_obj, JsVal.isFn]

/-- A `$ref` substitution never produces a string `type` (it yields a model
class or `undefined`). -/
theorem isStrEq_resolveRef (refs : List (String × ModelCls)) (r : JsVal)
    (s : String) : isStrEq (resolveRef refs r) s = false := by
  cases r
  case str v =>
    cases h : refs.find? (fun e => e.1 = v) <;> simp [resolveRef, h, isStrEq]
  all_goals rfl

/-- A successful `buildArray` yields an array. -/
theorem buildArrayF_ok_arr {f : Nat} {name : String} {sch data : JsVal}
    {refs : List (String × ModelCls)} {r : JsVal}
    (h : buildArrayF f name sch data refs = .ok r) : ∃ xs, r = .arr xs := by
  cases f with
  | zero => simp [buildArrayF] at h
  | succ f =>
    cases data <;> simp only [buildArrayF, Res.bind_eq_bind] at h
    case arr xs =>
      rw [Res.bind_eq_ok] at h
      obtain ⟨items, _, h⟩ := h
      rw [Res.bind_eq_ok] at h
      obtain ⟨out, _, h⟩ := h
      injection h with h
      exact ⟨out, h.symm⟩
    all_goals cases h

/-- `buildArray` of an empty array is the empty array (when it succeeds). -/
theorem buildArrayF_nil_ok {f : Nat} {name : String} {sch : JsVal}
    {refs : List (String × ModelCls)} {r : JsVal}
    (h : buildArrayF f name sch (.arr []) refs = .ok r) : r = .arr [] := by
  cases f with
  | zero => simp [buildArrayF] at h
  | succ f =>
    simp only [buildArrayF, Res.bind_eq_bind] at h
    rw [Res.bind_eq_ok] at h
    obtain ⟨items, _, h⟩ := h
    rw [Res.bind_eq_ok] at h
    obtain ⟨out, hout, h⟩ := h
    injection h with h
    cases f with
    | zero => simp [buildElemsF] at hout
    | succ f2 =>
      simp only [buildElemsF] at hout
      injection hout with hout
      rw [← h, ← hout]

/-- `buildValue` on an array-kind property with a missing value and no
declared default yields the empty array. -/
theorem buildValueF_array_absent {f : Nat} {name : String}
    {pl : List (String × JsVal)} {refs : List (String × ModelCls)} {r : JsVal}
    (hty : sGet0 (.obj pl) "type" = .str "array")
    (hdef : sGet0 (.obj pl) "default" = .undef)
    (h : buildValueF f name (.obj pl) .undef refs = .ok r) : r = .arr [] := by
  cases f with
  | zero => simp [buildValueF] at h
  | succ f =>
    have hty' : (jsLookup pl "type").getD .undef = .str "array" := by
      rw [← sGet0_obj]; exact hty
    have htr : (JsVal.str "array").truthy = true := rfl
    have hse : isStrEq (.str "array") "array" = true := rfl
    simp only [buildValueF, stampTb_eq_ok, substDefault_absent hdef, sGetE_obj,
      hty', htr, hse, Res.bind_eq_bind, Res.bind_ok, Bool.not_true,
      Bool.false_and, Bool.false_eq_true, if_false, if_true] at h
    simp at h
    exact h.symm

/-- `buildValue` of an array-kind property only ever yields an array. -/
theorem buildValueF_array_ok_arr {f : Nat} {name : String}
    {pl : List (String × JsVal)} {v : JsVal} {refs : List (String × ModelCls)}
    {r : JsVal}
    (hty : sGet0 (.obj pl) "type" = .str "array")
    (h : buildValueF f name (.obj pl) v refs = .ok r) : ∃ xs, r = .arr xs := by
  cases f with
  | zero => simp [buildValueF] at h
  | succ f =>
    have hty' : (jsLookup pl "type").getD .undef = .str "array" := by
      rw [← sGet0_obj]; exact hty
    have htr : (JsVal.str "array").truthy = true := rfl
    have hse : isStrEq (.str "array") "array" = true := rfl
    simp only [buildValueF, stampTb_eq_ok, Res.bind_eq_bind] at h
    rw [Res.bind_eq_ok] at h
    obtain ⟨w, _, h⟩ := h
    simp only [sGetE_obj, hty', htr, hse, Res.bind_ok, Bool.not_true,
      Bool.false_and, Bool.false_eq_true, if_false, if_true] at h
    cases w
    case undef =>
      injection h with h
      exact ⟨[], h.symm⟩
    all_goals exact buildArrayF_ok_arr h

/-- `buildValue` of an array-kind property at the empty array reproduces
the empty array. -/
theorem buildValueF_arr_nil {f : Nat} {name : String}
    {pl : List (String × JsVal)} {refs : List (String × ModelCls)} {r : JsVal}
    (hty : sGet0 (.obj pl) "type" = .str "array")
    (h : buildValueF f name (.obj pl) (.arr []) refs = .ok r) : r = .arr [] := by
  cases f with
  | zero => simp [buildValueF] at h
  | succ f =>
    have hty' : (jsLookup pl "type").getD .undef = .str "array" := by
      rw [← sGet0_obj]; exact hty
    have htr : (JsVal.str "array").truthy = true := rfl
    have hse : isStrEq (.str "array") "array" = true := rfl
    simp only [buildValueF, stampTb_eq_ok, substDefault, sGetE_obj, hty', htr,
      hse, Res.bind_eq_bind, Res.bind_ok, Bool.not_true, Bool.false_and,
      Bool.false_eq_true, if_false, if_true] at h
    exact buildArrayF_nil_ok h

/-- `buildValue` on a non-array property with a missing value and no
declared default yields `undefined` (the key's value stays absent). -/
theorem buildValueF_nonarray_absent {f : Nat} {name : String}
    {pl : List (String × JsVal)} {refs : List (String × ModelCls)} {r : JsVal}
    (harr : isStrEq (sGet0 (.obj pl) "type") "array" = false)
    (hdef : sGet0 (.obj pl) "default" = .undef)
    (h : buildValueF f name (.obj pl) .undef refs = .ok r) : r = .undef := by
  cases f with
  | zero => simp [buildValueF] at h
  | succ f =>
    have harr' : isStrEq ((jsLookup pl "type").getD .undef) "array" = false := by
      rw [← sGet0_obj]; exact harr
    simp only [buildValueF, stampTb_eq_ok, substDefault_absent hdef, sGetE_obj,
      Res.bind_eq_bind, Res.bind_ok] at h
    by_cases hc : (!((jsLookup pl "type").getD .undef).truthy
        && ((jsLookup pl "$ref").getD .undef).truthy) = true
    · rw [if_pos hc] at h
      rw [show sGetE (JsVal.obj
            [("type", resolveRef refs ((jsLookup pl "$ref").getD .undef))]) "type"
          = .ok (resolveRef refs ((jsLookup pl "$ref").getD .undef)) from rfl,
        Res.bind_ok] at h
      rw [show (isStrEq (resolveRef refs ((jsLookup pl "$ref").getD .undef))
          "array") = false from isStrEq_resolveRef _ _ _] at h
      simp only [Bool.false_eq_true, if_false] at h
      injection h with h
      exact h.symm
    · rw [if_neg hc] at h
      simp only [sGetE_obj, Res.bind_ok, harr', Bool.false_eq_true,
        if_false] at h
      injection h with h
      exact h.symm

/-- `buildValue` on a scalar-kind property (a non-empty `type` other than
`array`, `object`, `string` and a model class) passes a present value
through unchanged. -/
theorem buildValueF_scalar_pass {f : Nat} {name : String}
    {pl : List (String × JsVal)} {ty : String} {v : JsVal}
    {refs : List (String × ModelCls)} {r : JsVal}
    (hty : sGet0 (.obj pl) "type" = .str ty)
    (htr : ty ≠ "") (harr : ty ≠ "array") (hobj : ty ≠ "object")
    (hstr : ty ≠ "string") (hv : v ≠ .undef)
    (h : buildValueF f name (.obj pl) v refs = .ok r) : r = v := by
  cases f with
  | zero => simp [buildValueF] at h
  | succ f =>
    have hty' : (jsLookup pl "type").getD .undef = .str ty := by
      rw [← sGet0_obj]; exact hty
    have htt : (JsVal.str ty).truthy = true := by
      simp [JsVal.truthy, htr]
    have hse1 : isStrEq (.str ty) "array" = false := by
      simp [isStrEq, harr]
    have hse2 : isStrEq (.str ty) "object" = false := by
      simp [isStrEq, hobj]
    have hse3 : isStrEq (.str ty) "string" = false := by
      simp [isStrEq, hstr]
    have hmc : isModelClassE (.str ty) = .ok false := rfl
    cases v
    case undef => exact absurd rfl hv
    all_goals
      simp only [buildValueF, stampTb_eq_ok, substDefault, sGetE_obj, hty',
        htt, hse1, hse2, hse3, hmc, Res.bind_eq_bind, Res.bind_ok,
        Bool.not_true, Bool.false_and, Bool.false_eq_true, if_false] at h
    all_goals
      injection h with h
      exact h.symm

/-- Substituting a declared non-function `default` for a missing value is
the same as building that default as the value. -/
theorem buildValueF_default_subst (f : Nat) (name : String)
    (pl : List (String × JsVal)) (d : JsVal) (refs : List (String × ModelCls))
    (hd : jsLookup pl "default" = some d) (hfn : d.isFn = false) :
    buildValueF (f+1) name (.obj pl) .undef refs
      = buildValueF (f+1) name (.obj pl) d refs := by
  by_cases hdu : d = .undef
  · subst hdu
    rfl
  · simp only [buildValueF, substDefault_decl hd hfn,
      substDefault_not_undef hdu]

/-- The two-pass shape of a constructed instance's value for one declared
non-read-only property: `buildValue` runs once against the raw input and
once more (from the constructor's `setValues`) against the first pass's
output, and the instance's field holds the second result. -/
theorem newModelF_prop_value {f : Nat} {m : ModelCls} {k : String}
    {pl : List (String × JsVal)} {vs : List (String × JsVal)}
    {flds : List (String × JsVal)}
    (hk : jsLookup (allProps m) k = some (.obj pl))
    (hro : (sGet0 (.obj pl) "readOnly").truthy = false)
    (h : newModelF f m (.obj vs) = .ok (.inst m flds)) :
    ∃ f1 f2 bv1 bv2,
      buildValueF f1 ("$" ++ "." ++ k) (.obj pl) ((jsLookup vs k).getD .undef)
        [("#", m)] = .ok bv1 ∧
      buildValueF f2 ("$" ++ "." ++ k) (.obj pl) bv1 [("#", m)] = .ok bv2 ∧
      jsLookup flds k = some bv2 := by
  have hne : allProps m ≠ [] := by
    intro hc
    rw [hc] at hk
    simp at hk
  obtain ⟨fa, fb, p, flds', hndp, hndf, hbp1, hbp2, hr⟩ :=
    newModelF_declared hne h
  injection hr with hm hf
  subst hf
  rw [show (if (JsVal.obj vs).truthy then JsVal.obj vs else .obj []) = .obj vs
      from rfl] at hbp1
  have hmem1 : (k, JsVal.obj pl) ∈ (allProps m).filter
      (fun e => !(sGet0 e.2 "readOnly").truthy) := by
    apply mem_filter_of_lookup hk
    show (!(sGet0 (JsVal.obj pl) "readOnly").truthy) = true
    rw [hro]
    rfl
  obtain ⟨f1, v1, bv1, hv1, hbv1, hp1⟩ := buildPropsF_content
    (nodupKeys_filter _ (nodupKeys_allProps m)) hmem1 hbp1
  have hv1' : v1 = (jsLookup vs k).getD .undef := by
    rw [show jsIndexE (JsVal.obj vs) k = .ok ((jsLookup vs k).getD .undef)
        from rfl] at hv1
    injection hv1 with hv1
    exact hv1.symm
  subst hv1'
  have hmem2 : (k, JsVal.obj pl) ∈ (allProps m).filter
      (fun e => hasOwn0 (.obj p) e.1 && !(sGet0 e.2 "readOnly").truthy) := by
    apply mem_filter_of_lookup hk
    show (hasOwn0 (JsVal.obj p) k && !(sGet0 (JsVal.obj pl) "readOnly").truthy)
      = true
    rw [hro, hasOwn0_of_lookup hp1]
    rfl
  obtain ⟨f2, v2, bv2, hv2, hbv2, hp2⟩ := buildPropsF_content
    (nodupKeys_filter _ (nodupKeys_allProps m)) hmem2 hbp2
  have hv2' : v2 = bv1 := by
    rw [show jsIndexE (JsVal.obj p) k = .ok ((jsLookup p k).getD .undef)
        from rfl, hp1] at hv2
    injection hv2 with hv2
    exact hv2.symm
  rw [hv2'] at hbv2
  exact ⟨f1, f2, bv1, bv2, hbv1, hbv2, hp2⟩

/-- Keys outside the serialized entries are untouched by the serializer's
reduce step. -/
theorem serializePropsF_frame {entries : List (String × JsVal)} :
    ∀ {f : Nat} {fields acc out : List (String × JsVal)} {k : String},
      serializePropsF f fields entries acc = .ok out →
      k ∉ keysOf entries → jsLookup out k = jsLookup acc k := by
  induction entries with
  | nil =>
    intro f fields acc out k h _
    cases f with
    | zero => simp [serializePropsF] at h
    | succ f =>
      simp only [serializePropsF] at h
      injection h with h
      rw [h]
  | cons e rest ih =>
    intro f fields acc out k h hk
    cases f with
    | zero => simp [serializePropsF] at h
    | succ f =>
      simp only [serializePropsF, Res.bind_eq_bind] at h
      rw [Res.bind_eq_ok] at h
      obtain ⟨pr, _, h⟩ := h
      simp only [keysOf_cons, List.mem_cons, not_or] at hk
      rw [ih h hk.2, lookup_jsSet_ne _ _ _ _ hk.1]

/-- The serialized object's value for one effective property is the
serialization of the instance's value for it. -/
theorem serializePropsF_content {entries : List (String × JsVal)} :
    ∀ {f : Nat} {fields acc out : List (String × JsVal)} {k : String}
      {ps : JsVal},
      NodupKeys entries → (k, ps) ∈ entries →
      serializePropsF f fields entries acc = .ok out →
      ∃ fv pr, serializeValF fv ps ((jsLookup fields k).getD .undef) = .ok pr ∧
        jsLookup out k = some pr := by
  induction entries with
  | nil => intro _ _ _ _ _ _ _ hm _; simp at hm
  | cons e rest ih =>
    intro f fields acc out k ps hnd hm h
    cases f with
    | zero => simp [serializePropsF] at h
    | succ f =>
      simp only [serializePropsF, Res.bind_eq_bind] at h
      rw [Res.bind_eq_ok] at h
      obtain ⟨pr, hpr, h⟩ := h
      unfold NodupKeys at hnd
      simp only [keysOf_cons, List.nodup_cons] at hnd
      rcases List.mem_cons.mp hm with h1 | h2
      · have he1 : e.1 = k := by rw [← h1]
        have he2 : e.2 = ps := by rw [← h1]
        have hkk : k ∉ keysOf rest := fun hc => hnd.1 (he1 ▸ hc)
        refine ⟨f, pr, ?_, ?_⟩
        · rw [← he1, ← he2]; exact hpr
        · rw [serializePropsF_frame h hkk, ← he1, lookup_jsSet_self]
      · exact ih hnd.2 h2 h

/-- Serializing a scalar-kind property's value (a `type` other than
`string` and a model class) is the identity. -/
theorem serializeValF_scalar {f : Nat} {pl : List (String × JsVal)}
    {ty : String} {v r : JsVal}
    (hty : sGet0 (.obj pl) "type" = .str ty)
    (hstr : ty ≠ "string")
    (h : serializeValF f (.obj pl) v = .ok r) : r = v := by
  cases f with
  | zero => simp [serializeValF] at h
  | succ f =>
    have hty' : (jsLookup pl "type").getD .undef = .str ty := by
      rw [← sGet0_obj]; exact hty
    have hmc : isModelClassE (.str ty) = .ok false := rfl
    have hse : isStrEq (.str ty) "string" = false := by
      simp [isStrEq, hstr]
    cases v <;>
      simp only [serializeValF, sGetE_obj, hty', hmc, hse, Res.bind_eq_bind,
        Res.bind_ok, Bool.false_and, Bool.false_eq_true, if_false] at h <;>
      (injection h with h; exact h.symm)

/-- `buildValue` on a scalar-kind property at a missing value reduces to
default substitution (the scalar dispatch passes the substituted value
through, and `undefined` stays `undefined`). -/
theorem buildValueF_scalar_undef {f : Nat} {name : String}
    {pl : List (String × JsVal)} {ty : String}
    {refs : List (String × ModelCls)} {r : JsVal}
    (hty : sGet0 (.obj pl) "type" = .str ty)
    (htr : ty ≠ "") (harr : ty ≠ "array") (hobj : ty ≠ "object")
    (hstr : ty ≠ "string")
    (h : buildValueF f name (.obj pl) .undef refs = .ok r) :
    substDefault (.obj pl) .undef = .ok r := by
  cases f with
  | zero => simp [buildValueF] at h
  | succ f =>
    have hty' : (jsLookup pl "type").getD .undef = .str ty := by
      rw [← sGet0_obj]; exact hty
    have htt : (JsVal.str ty).truthy = true := by
      simp [JsVal.truthy, htr]
    have hse1 : isStrEq (.str ty) "array" = false := by
      simp [isStrEq, harr]
    have hse2 : isStrEq (.str ty) "object" = false := by
      simp [isStrEq, hobj]
    have hse3 : isStrEq (.str ty) "string" = false := by
      simp [isStrEq, hstr]
    have hmc : isModelClassE (.str ty) = .ok false := rfl
    simp only [buildValueF, stampTb_eq_ok, Res.bind_eq_bind] at h
    rw [Res.bind_eq_ok] at h
    obtain ⟨w, hw, h⟩ := h
    suffices hrw : r = w by rw [hrw]; exact hw
    cases w <;>
      simp only [sGetE_obj, hty', htt, hse1, hse2, hse3, hmc,
        Res.bind_eq_bind, Res.bind_ok, Bool.not_true, Bool.false_and,
        Bool.false_eq_true, if_false] at h <;>
      (injection h with h; exact h.symm)

/-- A serialized instance of a type with declared properties is the
serializer's pass over the effective properties. -/
theorem modelAsObjectF_declared {g : Nat} {m : ModelCls}
    {flds : List (String × JsVal)} {r : JsVal}
    (hne : allProps m ≠ [])
    (h : modelAsObjectF g (.inst m flds) = .ok r) :
    ∃ g2 out, serializePropsF g2 flds (allProps m) [] = .ok out ∧
      r = .obj out := by
  cases g with
  | zero => simp [modelAsObjectF] at h
  | succ g =>
    simp only [modelAsObjectF, Res.bind_eq_bind] at h
    rw [Res.bind_eq_ok] at h
    obtain ⟨s, hs, h⟩ := h
    obtain ⟨pf, hndpf, hkpf, hshape⟩ := getSchemaF_ok_props_keys hs hne
    subst hshape
    simp only [sGetE_obj, lookup_jsSet_self, Option.getD_some,
      Res.bind_ok] at h
    rw [if_neg (by simp [JsVal.truthy])] at h
    rw [Res.bind_eq_ok] at h
    obtain ⟨out, hout, h⟩ := h
    injection h with h
    exact ⟨g, out, hout, h.symm⟩

/-- The static `schema` overrides of a well-formed class are duplicate-free
(looked up along the chain, with `\x7b\x7d` for a class that declares none). -/
theorem nodupKeys_schemaOvr {m : ModelCls} (hwf : wfCls m = true) :
    NodupKeys ((ModelCls.schemaLookup m).getD []) := by
  cases hs : ModelCls.schemaLookup m with
  | none => exact nodupKeys_nil
  | some l => exact wfCls_schema hwf hs

/-- A key of an object's key list is an own property. -/
theorem hasOwn0_of_keysOf {vs : List (String × JsVal)} {k : String}
    (h : k ∈ keysOf vs) : hasOwn0 (.obj vs) k = true := by
  obtain ⟨e, he, hk⟩ := List.mem_map.mp h
  simp only [hasOwn0]
  exact List.any_eq_true.mpr ⟨e, he, by simp [hk]⟩

/-- A key an object does not hold is not an own property. -/
theorem hasOwn0_obj_false {vs : List (String × JsVal)} {k : String}
    (h : jsLookup vs k = none) : hasOwn0 (.obj vs) k = false := by
  rw [jsLookup_none_iff] at h
  cases hx : hasOwn0 (.obj vs) k
  · rfl
  · exfalso
    simp only [hasOwn0] at hx
    obtain ⟨e, he, hk⟩ := List.any_eq_true.mp hx
    simp only [decide_eq_true_eq] at hk
    exact h (List.mem_map.mpr ⟨e, he, hk⟩)

/-- A key of a filtered object came from an entry satisfying the filter. -/
theorem keysOf_filter_pred {l : List (String × JsVal)}
    {p : (String × JsVal) → Bool} {k : String}
    (h : k ∈ keysOf (l.filter p)) : ∃ ps, (k, ps) ∈ l ∧ p (k, ps) = true := by
  obtain ⟨e, he, hk⟩ := List.mem_map.mp h
  obtain ⟨a, b⟩ := e
  cases hk
  exact ⟨b, List.mem_of_mem_filter he, List.of_mem_filter he⟩

/-- Whatever branch `setValues` takes, it folds assignments of entries
whose keys are all own properties of the given values over the current
fields. -/
theorem setValuesCoreF_pentries {f : Nat} {m : ModelCls}
    {cur vs flds : List (String × JsVal)}
    (h : setValuesCoreF f m cur (.obj vs) = .ok flds) :
    ∃ pE : List (String × JsVal),
      (∀ k, k ∈ keysOf pE → hasOwn0 (.obj vs) k = true) ∧
      flds = pE.foldl (fun fs e => jsSet fs e.1 e.2) cur := by
  cases f with
  | zero => simp [setValuesCoreF] at h
  | succ f =>
    simp only [setValuesCoreF, Res.bind_eq_bind] at h
    rw [Res.bind_eq_ok] at h
    obtain ⟨s, hs, h⟩ := h
    rw [Res.bind_eq_ok] at h
    obtain ⟨props, hprops, h⟩ := h
    rw [Res.bind_eq_ok] at h
    obtain ⟨ap, hap, h⟩ := h
    by_cases hb : (!props.truthy && !(isFalseV ap)) = true
    · rw [if_pos hb] at h
      rw [Res.bind_ok,
        show jsEntriesE (JsVal.obj vs) = Res.ok vs from rfl, Res.bind_ok] at h
      injection h with h
      exact ⟨vs, fun k hk => hasOwn0_of_keysOf hk, h.symm⟩
    · rw [if_neg hb] at h
      rw [Res.bind_eq_ok] at h
      obtain ⟨entries, hent, h⟩ := h
      rw [Res.bind_eq_ok] at h
      obtain ⟨kept, hkept, h⟩ := h
      rw [Res.bind_eq_ok] at h
      obtain ⟨out, hout, h⟩ := h
      rw [Res.bind_ok,
        show jsEntriesE (JsVal.obj out) = Res.ok out from rfl, Res.bind_ok] at h
      injection h with h
      refine ⟨out, ?_, h.symm⟩
      intro k hk
      rcases buildPropsF_keys hout hk with h1 | h2
      · simp [keysOf] at h1
      · rw [setValuesFilter_ok hkept] at h2
        obtain ⟨ps, _, hp⟩ := keysOf_filter_pred h2
        rw [Bool.and_eq_true] at hp
        exact hp.1

/-! ### The historical validate-then-build engine (src/index.js, variant 1)

The first historical variant of `TypedModel` validates the raw input
against the derived schema before building, as §7 of the spec prescribes
for the chosen target implementation. Its constructor consults the
external `jsonschema` validator; that library is not part of this
repository, so the fragment of its contract the claim exercises is
modelled from the spec (`validate(data, schema) -> Error[]`, one
`additionalProperty` error per unrecognized key under
`additionalProperties: false`). A thrown validation failure carries the
rejected input and the validator's error list (the variant renders both
into the `Error` message via `util.json`; we keep the pair structurally). -/

/-- The result of a variant-1 computation: success, a validation failure
carrying the rejected input and the validator's error list, a thrown
JavaScript error, or fuel exhaustion. -/
inductive V1Res (α : Type) where
  | ok (a : α)
  | validation (input : JsVal) (errors : List String)
  | err (e : JsErr)
  | spin

namespace V1Res

def bind : V1Res α → (α → V1Res β) → V1Res β
  | .ok a, f => f a
  | .validation i e, _ => .validation i e
  | .err e, _ => .err e
  | .spin, _ => .spin

instance : Monad V1Res where
  pure := .ok
  bind := bind

@[simp] theorem vbind_ok (a : α) (f : α → V1Res β) : bind (.ok a) f = f a := rfl

@[simp] theorem vpure_eq_ok (a : α) : (pure a : V1Res α) = .ok a := rfl

@[simp] theorem vbind_eq_bind (x : V1Res α) (f : α → V1Res β) :
    x >>= f = bind x f := rfl

theorem vbind_eq_ok {x : V1Res α} {f : α → V1Res β} {b : β} :
    bind x f = .ok b ↔ ∃ a, x = .ok a ∧ f a = .ok b := by
  cases x <;> simp [bind]

/-- Lift a plain `Res` computation (the shared duck-typing primitives)
into `V1Res`. -/
def ofRes : Res α → V1Res α
  | .ok a => .ok a
  | .err e => .err e
  | .spin => .spin

@[simp] theorem ofRes_ok (a : α) : ofRes (.ok a : Res α) = .ok a := rfl

theorem ofRes_eq_ok {r : Res α} {a : α} : ofRes r = .ok a ↔ r = .ok a := by
  cases r <;> simp [ofRes]

end V1Res

/-- Variant 1's default substitution: `value = schema.default` is a plain
property read (no function invocation in this variant). -/
def substV1 (schema0 value0 : JsVal) : Res JsVal :=
  match value0 with
  | .undef => sGetE schema0 "default"
  | v => .ok v

/-- The merged property mapping of variant 1 (`{...collectBaseProps(this),
...this.props}`); this variant does not drop `undefined` entries. -/
def v1Props (m : ModelCls) : List (String × JsVal) :=
  jsSpread (collectBaseProps m) ((ModelCls.propsLookup m).getD [])

/-- The text of one `additionalProperty` validator error. -/
def addlPropErr (k : String) : String :=
  "additionalProperty " ++ k ++ " exists in instance when not allowed"

/-- Modelled from the spec: the external `jsonschema` validator is consumed
only through `validate(data, schema) -> Error[]`; the fragment the claim
exercises reports, under `additionalProperties: false`, one error per own
key of the data that is not a declared property, in key order (other
validations of the real library are out of the claim's scope and modelled
as reporting nothing). -/
def jsonschemaErrors (declared : List String) (addl : JsVal)
    (dataEntries : List (String × JsVal)) : List String :=
  if isFalseV addl then
    (dataEntries.filter (fun e => !(decide (e.1 ∈ declared)))).map
      (fun e => addlPropErr e.1)
  else []

mutual

/-- Variant 1's `getSchema({ leaveModels })`: one literal document with
the mapped `properties` inline and the static `schema` overrides spread
last (after `properties`, unlike the current engine). -/
def getSchemaV1F (fuel : Nat) (m : ModelCls) (leaveModels : Bool) :
    V1Res JsVal :=
  match fuel with
  | 0 => .spin
  | fuel + 1 => do
    let mapped ← mapSchemaPropsV1F fuel (v1Props m) leaveModels
    pure (.obj (jsSpread
      [("$schema", .str metaSchemaURI), ("$id", .str m.jsName),
       ("type", .str "object"), ("properties", .obj (fromEntries mapped)),
       ("additionalProperties", .bool false)]
      ((ModelCls.schemaLookup m).getD [])))
termination_by structural fuel

/-- The `properties` mapper of variant 1's `getSchema`. -/
def mapSchemaPropsV1F (fuel : Nat) (entries : List (String × JsVal))
    (leaveModels : Bool) : V1Res (List (String × JsVal)) :=
  match fuel with
  | 0 => .spin
  | fuel + 1 =>
    match entries with
    | [] => pure []
    | e :: rest => do
      let t ← V1Res.ofRes (sGetE e.2 "type")
      let b ← V1Res.ofRes (isModelClassE t)
      let v ← mapSchemaPropChoiceV1 fuel t e.2 (b && !leaveModels)
      let tail ← mapSchemaPropsV1F fuel rest leaveModels
      pure ((e.1, v) :: tail)
termination_by structural fuel

/-- One mapped `properties` value of variant 1. -/
def mapSchemaPropChoiceV1 (fuel : Nat) (t ps : JsVal) (expand : Bool) :
    V1Res JsVal :=
  match fuel with
  | 0 => .spin
  | fuel + 1 =>
    if expand then
      match t with
      | .clsV sub => getSchemaV1F fuel sub false
      | _ => pure ps
    else pure ps
termination_by structural fuel

/-- Variant 1's `buildObject(schema, values, refs)`: build every
non-read-only declared property from `values` (no pass-through mode, no
path names). -/
def buildObjectV1F (fuel : Nat) (schema : JsVal) (values : JsVal)
    (refs : List (String × ModelCls)) : V1Res (List (String × JsVal)) :=
  match fuel with
  | 0 => .spin
  | fuel + 1 => do
    let props ← V1Res.ofRes (sGetE schema "properties")
    let entries ← V1Res.ofRes (jsEntriesE props)
    let kept ← V1Res.ofRes (resFilterProps entries)
    buildPropsV1F fuel kept values refs []
termination_by structural fuel

/-- The forEach-assignment of variant 1's `buildObject`. -/
def buildPropsV1F (fuel : Nat) (kept : List (String × JsVal)) (values : JsVal)
    (refs : List (String × ModelCls)) (acc : List (String × JsVal)) :
    V1Res (List (String × JsVal)) :=
  match fuel with
  | 0 => .spin
  | fuel + 1 =>
    match kept with
    | [] => pure acc
    | e :: rest => do
      let v ← V1Res.ofRes (jsIndexE values e.1)
      let bv ← buildValueV1F fuel e.2 v refs
      buildPropsV1F fuel rest values refs (jsSet acc e.1 bv)
termination_by structural fuel

/-- Variant 1's `buildValue(schema, value, refs)`: default by property
read, early `undefined` return, `$ref` substitution, then the
array/object/model dispatch (no string formats, no catch). -/
def buildValueV1F (fuel : Nat) (schema0 : JsVal) (value0 : JsVal)
    (refs : List (String × ModelCls)) : V1Res JsVal :=
  match fuel with
  | 0 => .spin
  | fuel + 1 => do
    let value ← V1Res.ofRes (substV1 schema0 value0)
    match value with
    | .undef => pure JsVal.undef
    | v => do
      let t0 ← V1Res.ofRes (sGetE schema0 "type")
      let r0 ← V1Res.ofRes (sGetE schema0 "$ref")
      let sch :=
        if !t0.truthy && r0.truthy then JsVal.obj [("type", resolveRef refs r0)]
        else schema0
      let t ← V1Res.ofRes (sGetE sch "type")
      if isStrEq t "array" then buildArrayV1F fuel sch v refs
      else if isStrEq t "object" then do
        let o ← buildObjectV1F fuel sch v refs
        pure (.obj o)
      else do
        let b ← V1Res.ofRes (isModelClassE t)
        if b then
          match t with
          | .clsV sub => newModelV1F fuel sub v
          | _ => pure v
        else pure v
termination_by structural fuel

/-- Variant 1's `buildArray(schema, data, refs)`. -/
def buildArrayV1F (fuel : Nat) (schema : JsVal) (data : JsVal)
    (refs : List (String × ModelCls)) : V1Res JsVal :=
  match fuel with
  | 0 => .spin
  | fuel + 1 =>
    match data with
    | .arr xs => do
      let items ← V1Res.ofRes (sGetE schema "items")
      let out ← buildElemsV1F fuel items xs refs
      pure (.arr out)
    | _ => .err (typeError "data.map is not a function")
termination_by structural fuel

/-- The element map of variant 1's `buildArray`. -/
def buildElemsV1F (fuel : Nat) (items : JsVal) (xs : List JsVal)
    (refs : List (String × ModelCls)) : V1Res (List JsVal) :=
  match fuel with
  | 0 => .spin
  | fuel + 1 =>
    match xs with
    | [] => pure []
    | x :: rest => do
      let bv ← buildValueV1F fuel items x refs
      let bs ← buildElemsV1F fuel items rest refs
      pure (bv :: bs)
termination_by structural fuel

/-- Variant 1's `TypedModel.validate(values)`: derive the (unexpanded)
schema and consult the validator; `none` for zero errors, the error list
otherwise. -/
def validateCoreV1F (fuel : Nat) (m : ModelCls) (values : JsVal) :
    V1Res (Option (List String)) :=
  match fuel with
  | 0 => .spin
  | fuel + 1 => do
    let s ← getSchemaV1F fuel m false
    let props ← V1Res.ofRes (sGetE s "properties")
    let addl ← V1Res.ofRes (sGetE s "additionalProperties")
    let pEntries ← V1Res.ofRes (jsEntriesE props)
    let vEntries ← V1Res.ofRes (jsEntriesE values)
    let errs := jsonschemaErrors (keysOf pEntries) addl vEntries
    pure (if errs.isEmpty then none else some errs)

/-- Variant 1's constructor: default a falsy argument to `{}`, validate
eagerly, throw the validation failure (carrying the rejected input and
the validator's error list) before any build step, and only on zero
errors derive the schema and build. -/
def newModelV1F (fuel : Nat) (m : ModelCls) (values0 : JsVal) : V1Res JsVal :=
  match fuel with
  | 0 => .spin
  | fuel + 1 => do
    let values := if values0.truthy then values0 else .obj []
    let errsO ← validateCoreV1F fuel m values
    match errsO with
    | some errs => .validation values errs
    | none => do
      let s ← getSchemaV1F fuel m true
      let flds ← buildObjectV1F fuel s values [("#", m)]
      pure (.inst m flds)
termination_by structural fuel

end

/-! ### Example model declarations (used to instantiate the theorems) -/

/-- The `User` model of the repository's test-suite. -/
def userCls : ModelCls :=
  .mk (.mk "User" (some [
    ("name", .obj [("type", .str "string"), ("default", .str "John")]),
    ("surname", .obj [("type", .str "string"), ("default", .str "Doe")]),
    ("fullName", .obj [("type", .str "string"), ("readOnly", .bool true)])]) none) none

/-- The base class of the test-suite's property-removal scenario. -/
def removalBaseCls : ModelCls :=
  .mk (.mk "InvalidBase" (some [
    ("name", .obj [("type", .str "string")]),
    ("key", .obj [("type", .str "string")])]) none) none

/-- A subclass that removes the inherited `key` property by declaring it
`undefined`. -/
def removalCls : ModelCls :=
  .mk (.mk "Invalid" (some [("key", .undef)]) none) (some removalBaseCls)

/-- A model whose static `schema` overrides try to override `properties`
(and add `required`). -/
def ovCls : ModelCls :=
  .mk (.mk "Ov" (some [("p", .obj [("type", .str "string")])])
    (some [("properties", .obj []), ("required", .arr [.str "p"])])) none

/-- A model with a read-only array-kind property. -/
def roArrCls : ModelCls :=
  .mk (.mk "RoArr" (some [
    ("xs", .obj [("type", .str "array"), ("readOnly", .bool true)])]) none) none

/-- A model with one ordinary array-kind property and no default. -/
def arrCls : ModelCls :=
  .mk (.mk "Arr" (some [
    ("xs", .obj [("type", .str "array"),
                 ("items", .obj [("type", .str "number")])])]) none) none

/-- A model with a single optional number property. -/
def c6cls : ModelCls :=
  .mk (.mk "One" (some [("x", .obj [("type", .str "number")])]) none) none

/-- A model with a string-typed property defaulting to a number (the
serializer will coerce the stored number to a string). -/
def c9cls : ModelCls :=
  .mk (.mk "M" (some [
    ("x", .obj [("type", .str "string"), ("default", .num 5)])]) none) none

/-- The schema document `getSchema` derives for `ovCls`. -/
def ovDoc : List (String × JsVal) :=
  [("$schema", .str metaSchemaURI), ("$id", .str "Ov"),
   ("type", .str "object"), ("additionalProperties", .bool false),
   ("properties", .obj [("p", .obj [("type", .str "string")])]),
   ("required", .arr [.str "p"])]

/-- A model whose array property's element objects have a throwing
function default (the test-suite's traceback scenario). -/
def tbCls : ModelCls :=
  .mk (.mk "Tb" (some [
    ("items", .obj [
      ("type", .str "array"),
      ("items", .obj [
        ("type", .str "object"),
        ("properties", .obj [
          ("dynamic", .obj [
            ("type", .str "number"),
            ("default", .fnV (.throwErr "Failed"))])])])])]) none) none

/-- A model with no declared properties and `additionalProperties: true`
(the ANY pattern). -/
def anyCls : ModelCls :=
  .mk (.mk "Any" none (some [("additionalProperties", .bool true)])) none

/-! ### Claim theorems -/

/-- C1. For every model type, the effective property set (`allProps`)
equals the ancestors' declared properties merged oldest-ancestor-first
(nearer descendants overriding by name) with the type's own properties
layered on top, and every entry whose final merged value is the absent
sentinel `undefined` is removed entirely, so its key appears neither in
the derived schema's `properties` (when the effective set is non-empty)
nor among the own fields of any constructed instance. -/
theorem allProps_effective_property_set (m : ModelCls) (hwf : wfCls m = true) :
    allProps m = specEffectiveProps m ∧
    (∀ k, jsLookup (specMergedRaw m) k = some .undef →
      jsLookup (allProps m) k = none) ∧
    (∀ k f lv s pf, allProps m ≠ [] → k ∉ keysOf (allProps m) →
      getSchemaF f m lv = .ok s → sGet0 s "properties" = .obj pf →
      k ∉ keysOf pf) ∧
    (∀ k f input flds, allProps m ≠ [] → k ∉ keysOf (allProps m) →
      newModelF f m input = .ok (.inst m flds) → jsLookup flds k = none) := by
  have hmain : allProps m = specEffectiveProps m :=
    allProps_eq_specEffectiveProps m hwf
  refine ⟨hmain, ?_, ?_, ?_⟩
  · intro k hk
    rw [allProps_eq_filter_raw, allPropsRaw_eq_specMergedRaw m hwf]
    apply jsLookup_eq_none
    exact keysOf_filter_not_mem (nodupKeys_specMergedRaw m) hk rfl
  · intro k f lv s pf hne hnk hs hpf
    obtain ⟨pf', hnd', hkeys', hshape⟩ := getSchemaF_ok_props_keys hs hne
    rw [hshape] at hpf
    simp only [sGet0_obj, lookup_jsSet_self, Option.getD_some] at hpf
    injection hpf with hpf
    rw [← hpf, hkeys']
    exact hnk
  · intro k f input flds hne hnk h
    obtain ⟨fa, fb, p, flds', hndp, hndf, hbp1, hbp2, hr⟩ :=
      newModelF_declared hne h
    injection hr with hm hf
    subst hf
    have hk2 : k ∉ keysOf ((allProps m).filter
        (fun e => hasOwn0 (.obj p) e.1 && !(sGet0 e.2 "readOnly").truthy)) :=
      fun hc => hnk (keysOf_filter_subset hc)
    rw [buildPropsF_frame hbp2 hk2]
    rfl

/-- Witness for C1 at the test-suite's removal scenario: `Invalid` deletes
the inherited `key` property by mapping it to `undefined`. -/
theorem allProps_effective_property_set_witness :
    allProps removalCls = specEffectiveProps removalCls ∧
    jsLookup (specMergedRaw removalCls) "key" = some .undef ∧
    jsLookup (allProps removalCls) "key" = none := by
  have h := allProps_effective_property_set removalCls (by decide)
  exact ⟨h.1, rfl, h.2.1 "key" rfl⟩

/-- C3. A property whose effective schema marks it `readOnly` is never
written by construction nor by `setValues`: the built instance has no own
field under that name whatever the input supplies, and `setValues` leaves
the instance's field for it untouched. -/
theorem readOnly_props_never_written (m : ModelCls) (k : String) (ps : JsVal)
    (hk : jsLookup (allProps m) k = some ps)
    (hro : (sGet0 ps "readOnly").truthy = true) :
    (∀ f input flds, newModelF f m input = .ok (.inst m flds) →
      jsLookup flds k = none) ∧
    (∀ f fields input m2 fields2,
      setValuesF f (.inst m fields) input = .ok (.inst m2 fields2) →
      jsLookup fields2 k = jsLookup fields k) := by
  have hne : allProps m ≠ [] := by
    intro hc
    rw [hc] at hk
    simp at hk
  constructor
  · intro f input flds h
    obtain ⟨fa, fb, p, flds', hndp, hndf, hbp1, hbp2, hr⟩ :=
      newModelF_declared hne h
    injection hr with hm hf
    subst hf
    have hk2 : k ∉ keysOf ((allProps m).filter
        (fun e => hasOwn0 (.obj p) e.1 && !(sGet0 e.2 "readOnly").truthy)) := by
      apply keysOf_filter_not_mem (nodupKeys_allProps m) hk
      simp [hro]
    rw [buildPropsF_frame hbp2 hk2]
    rfl
  · intro f fields input m2 fields2 h
    simp only [setValuesF, Res.bind_eq_bind] at h
    rw [Res.bind_eq_ok] at h
    obtain ⟨flds2, hsv, h⟩ := h
    injection h with h
    injection h with hm2 hf2
    subst hf2
    obtain ⟨fb, out, hnd, hbp, hflds⟩ := setValuesCoreF_declared hne hsv
    have hk2 : k ∉ keysOf ((allProps m).filter
        (fun e => hasOwn0 input e.1 && !(sGet0 e.2 "readOnly").truthy)) := by
      apply keysOf_filter_not_mem (nodupKeys_allProps m) hk
      simp [hro]
    have hkout : k ∉ keysOf out := by
      intro hc
      rcases buildPropsF_keys hbp hc with h1 | h2
      · simp [keysOf] at h1
      · exact hk2 h2
    rw [hflds, lookup_jsSpread_not_mem _ _ _ hkout]

/-- Witness for C3 at the test-suite's `User` model: `fullName` is
read-only and ignored by both construction and `setValues`. -/
theorem readOnly_props_never_written_witness :
    (newModelF 10 userCls (.obj [("name", .str "Jack"), ("surname", .str "Crack"),
        ("fullName", .str "READ_ONLY")])
      = .ok (.inst userCls [("name", .str "Jack"), ("surname", .str "Crack")])) ∧
    jsLookup [("name", JsVal.str "Jack"), ("surname", JsVal.str "Crack")]
      "fullName" = none := by
  have h := readOnly_props_never_written userCls "fullName"
    (.obj [("type", .str "string"), ("readOnly", .bool true)])
    rfl rfl
  refine ⟨rfl, ?_⟩
  exact h.1 10 (.obj [("name", .str "Jack"), ("surname", .str "Crack"),
    ("fullName", .str "READ_ONLY")])
    [("name", .str "Jack"), ("surname", .str "Crack")] rfl

/-- C4, counterexample. The claim says the static `schema` overrides win on
every key conflict, but `getSchema` assigns `properties` *after* spreading
the overrides: `ovCls` overrides `properties` with the empty object, yet
the derived document's `properties` is the computed mapping of the
effective property set, not the override (while the `required` override
does survive). -/
theorem getSchema_properties_override_clobbered :
    jsLookup ((ModelCls.schemaLookup ovCls).getD []) "properties"
      = some (.obj []) ∧
    getSchemaF 3 ovCls true = .ok (.obj ovDoc) ∧
    jsLookup ovDoc "properties"
      = some (.obj [("p", .obj [("type", .str "string")])]) ∧
    JsVal.obj [("p", .obj [("type", .str "string")])] ≠ .obj [] := by
  refine ⟨rfl, rfl, rfl, ?_⟩
  intro h
  injection h with h
  exact absurd h (by simp)

/-- C4 (amended). The derived schema document defaults `$schema` to the
fixed meta-schema URI, `$id` to the model type's name, `type` to
`"object"` and `additionalProperties` to `false`; the static `schema`
overrides are merged shallowly on top and win on every key conflict
*except* `properties`: whenever the effective property set is non-empty,
`properties` is assigned afterwards from the computed property mapping and
clobbers any `properties` override (an override of `properties` only
survives on a model with an empty effective property set). -/
theorem getSchema_document_fields (m : ModelCls) (hwf : wfCls m = true)
    (f : Nat) (lv : Bool) (doc : List (String × JsVal))
    (hdoc : getSchemaF f m lv = .ok (.obj doc)) :
    (∀ k v, jsLookup ((ModelCls.schemaLookup m).getD []) k = some v →
      (k = "properties" → allProps m = []) → jsLookup doc k = some v) ∧
    (jsLookup ((ModelCls.schemaLookup m).getD []) "$schema" = none →
      jsLookup doc "$schema" = some (.str metaSchemaURI)) ∧
    (jsLookup ((ModelCls.schemaLookup m).getD []) "$id" = none →
      jsLookup doc "$id" = some (.str m.jsName)) ∧
    (jsLookup ((ModelCls.schemaLookup m).getD []) "type" = none →
      jsLookup doc "type" = some (.str "object")) ∧
    (jsLookup ((ModelCls.schemaLookup m).getD []) "additionalProperties" = none →
      jsLookup doc "additionalProperties" = some (.bool false)) ∧
    (allProps m ≠ [] → lv = true →
      jsLookup doc "properties" = some (.obj (allProps m))) := by
  have hnd : NodupKeys ((ModelCls.schemaLookup m).getD []) :=
    nodupKeys_schemaOvr hwf
  have hovr : ∀ k v, jsLookup ((ModelCls.schemaLookup m).getD []) k = some v →
      jsLookup (docBase m) k = some v := by
    intro k v hv
    unfold docBase
    exact lookup_jsSpread_mem _ _ _ _ hnd hv
  have hbase : ∀ k, jsLookup ((ModelCls.schemaLookup m).getD []) k = none →
      jsLookup (docBase m) k = jsLookup (baseDoc m) k := by
    intro k h0
    unfold docBase
    exact lookup_jsSpread_not_mem _ _ _ ((jsLookup_none_iff _ _).mp h0)
  have hdocBase : ∀ k, k ≠ "properties" →
      jsLookup doc k = jsLookup (docBase m) k := by
    intro k hk
    by_cases hne : allProps m = []
    · have h1 := getSchemaF_ok_empty hdoc hne
      injection h1 with h1
      rw [h1]
    · obtain ⟨pf, _, _, h3⟩ := getSchemaF_ok_props_keys hdoc hne
      injection h3 with h3
      rw [h3, lookup_jsSet_ne _ _ _ _ hk]
  refine ⟨?_, ?_, ?_, ?_, ?_, ?_⟩
  · intro k v hov hkp
    by_cases hk : k = "properties"
    · subst hk
      have h1 := getSchemaF_ok_empty hdoc (hkp rfl)
      injection h1 with h1
      rw [h1]
      exact hovr _ _ hov
    · rw [hdocBase k hk]
      exact hovr _ _ hov
  · intro h0
    rw [hdocBase _ (by decide), hbase _ h0]
    rfl
  · intro h0
    rw [hdocBase _ (by decide), hbase _ h0]
    rfl
  · intro h0
    rw [hdocBase _ (by decide), hbase _ h0]
    rfl
  · intro h0
    rw [hdocBase _ (by decide), hbase _ h0]
    rfl
  · intro hne hlv
    subst hlv
    have h1 := getSchemaF_ok_props_true hdoc hne
    injection h1 with h1
    rw [h1, lookup_jsSet_self]

/-- Witness for C4 at `ovCls`: the `required` override survives, the
defaulted `$schema` field is the meta-schema URI, and `properties` is the
computed mapping of the effective property set. -/
theorem getSchema_document_fields_witness :
    jsLookup ovDoc "required" = some (.arr [.str "p"]) ∧
    jsLookup ovDoc "$schema" = some (.str metaSchemaURI) ∧
    jsLookup ovDoc "properties" = some (.obj (allProps ovCls)) := by
  have hne : allProps ovCls ≠ [] := by
    intro hc
    have h2 : ([("p", JsVal.obj [("type", JsVal.str "string")])]
        : List (String × JsVal)) = [] := hc
    exact List.noConfusion h2
  have h := getSchema_document_fields ovCls (by decide) 3 true ovDoc rfl
  refine ⟨?_, ?_, ?_⟩
  · exact h.1 "required" (.arr [.str "p"]) rfl (fun hc => absurd hc (by decide))
  · exact h.2.1 rfl
  · exact h.2.2.2.2.2 hne rfl

/-- C5, counterexample. The claim says an array-kind property never ends up
absent after build, but a read-only array-kind property is filtered before
building: `roArrCls`'s `xs` is array-kind, yet a constructed instance has
no own field `xs` at all (not even the empty array). -/
theorem readOnly_array_prop_built_absent :
    jsLookup (allProps roArrCls) "xs"
      = some (.obj [("type", .str "array"), ("readOnly", .bool true)]) ∧
    sGet0 (.obj [("type", JsVal.str "array"), ("readOnly", JsVal.bool true)])
      "type" = .str "array" ∧
    newModelF 5 roArrCls (.obj []) = .ok (.inst roArrCls []) ∧
    jsLookup ([] : List (String × JsVal)) "xs" = none :=
  ⟨rfl, rfl, rfl, rfl⟩

/-- C5 (amended). For non-read-only array-kind properties the claim holds:
with no input value and no declared default the built instance holds the
empty array under the property's name; whatever the input, the built value
of a non-read-only array-kind property is always an array (never absent);
and a declared non-function default substitutes for the missing value
(taking precedence over the empty-array fallback). Read-only array-kind
properties are excluded: they are filtered out before building and end up
absent. -/
theorem array_props_empty_fallback :
    (∀ m k pl vs f flds,
      jsLookup (allProps m) k = some (.obj pl) →
      (sGet0 (.obj pl) "readOnly").truthy = false →
      sGet0 (.obj pl) "type" = .str "array" →
      sGet0 (.obj pl) "default" = .undef →
      jsLookup vs k = none →
      newModelF f m (.obj vs) = .ok (.inst m flds) →
      jsLookup flds k = some (.arr [])) ∧
    (∀ m k pl vs f flds,
      jsLookup (allProps m) k = some (.obj pl) →
      (sGet0 (.obj pl) "readOnly").truthy = false →
      sGet0 (.obj pl) "type" = .str "array" →
      newModelF f m (.obj vs) = .ok (.inst m flds) →
      ∃ xs, jsLookup flds k = some (.arr xs)) ∧
    (∀ f name pl d refs,
      jsLookup pl "default" = some d → d.isFn = false →
      buildValueF (f+1) name (.obj pl) .undef refs
        = buildValueF (f+1) name (.obj pl) d refs) := by
  refine ⟨?_, ?_, ?_⟩
  · intro m k pl vs f flds hk hro hty hdef hin h
    obtain ⟨f1, f2, bv1, bv2, hbv1, hbv2, hlk⟩ := newModelF_prop_value hk hro h
    rw [hin] at hbv1
    have h1 : bv1 = .arr [] := buildValueF_array_absent hty hdef hbv1
    subst h1
    have h2 : bv2 = .arr [] := buildValueF_arr_nil hty hbv2
    subst h2
    exact hlk
  · intro m k pl vs f flds hk hro hty h
    obtain ⟨f1, f2, bv1, bv2, hbv1, hbv2, hlk⟩ := newModelF_prop_value hk hro h
    obtain ⟨xs2, h2⟩ := buildValueF_array_ok_arr hty hbv2
    subst h2
    exact ⟨xs2, hlk⟩
  · intro f name pl d refs hd hfn
    exact buildValueF_default_subst f name pl d refs hd hfn

/-- Witness for C5 at `arrCls`: the array-kind `xs` with no input and no
default comes out as the empty array. -/
theorem array_props_empty_fallback_witness :
    jsLookup [("xs", JsVal.arr [])] "xs" = some (.arr []) := by
  have h := array_props_empty_fallback
  exact h.1 arrCls "xs"
    [("type", .str "array"), ("items", .obj [("type", .str "number")])]
    [] 6 [("xs", .arr [])] rfl rfl rfl rfl rfl rfl

/-- C6, counterexample. The claim says a non-array property that is still
absent after defaulting is omitted entirely from the built instance, but
the engine assigns the processed (still `undefined`) value under the key:
`c6cls`'s optional `x` ends up as a present own field holding `undefined`. -/
theorem absent_prop_key_present :
    jsLookup (allProps c6cls) "x" = some (.obj [("type", .str "number")]) ∧
    newModelF 5 c6cls (.obj []) = .ok (.inst c6cls [("x", .undef)]) ∧
    keysOf [("x", JsVal.undef)] = ["x"] ∧
    jsLookup [("x", JsVal.undef)] "x" = some .undef :=
  ⟨rfl, rfl, rfl, rfl⟩

/-- C6 (amended). A non-array, non-read-only property that is absent from
the input and has no declared default is not omitted from the built
instance: its key is present, bound to the absent sentinel `undefined`
(never a null-like value); an explicit `null` input for a scalar-kind
property is preserved as `null`; and the two outcomes remain
distinguishable downstream since `undefined` and `null` are distinct
values. -/
theorem absent_props_bound_to_undefined :
    (∀ m k pl vs f flds,
      jsLookup (allProps m) k = some (.obj pl) →
      (sGet0 (.obj pl) "readOnly").truthy = false →
      isStrEq (sGet0 (.obj pl) "type") "array" = false →
      sGet0 (.obj pl) "default" = .undef →
      jsLookup vs k = none →
      newModelF f m (.obj vs) = .ok (.inst m flds) →
      jsLookup flds k = some .undef) ∧
    (∀ m k pl ty vs f flds,
      jsLookup (allProps m) k = some (.obj pl) →
      (sGet0 (.obj pl) "readOnly").truthy = false →
      sGet0 (.obj pl) "type" = .str ty →
      ty ≠ "" → ty ≠ "array" → ty ≠ "object" → ty ≠ "string" →
      jsLookup vs k = some .null →
      newModelF f m (.obj vs) = .ok (.inst m flds) →
      jsLookup flds k = some .null) ∧
    JsVal.undef ≠ JsVal.null := by
  refine ⟨?_, ?_, ?_⟩
  · intro m k pl vs f flds hk hro harr hdef hin h
    obtain ⟨f1, f2, bv1, bv2, hbv1, hbv2, hlk⟩ := newModelF_prop_value hk hro h
    rw [hin] at hbv1
    have h1 : bv1 = .undef := buildValueF_nonarray_absent harr hdef hbv1
    subst h1
    have h2 : bv2 = .undef := buildValueF_nonarray_absent harr hdef hbv2
    subst h2
    exact hlk
  · intro m k pl ty vs f flds hk hro hty htr harr hobj hstr hin h
    obtain ⟨f1, f2, bv1, bv2, hbv1, hbv2, hlk⟩ := newModelF_prop_value hk hro h
    rw [hin] at hbv1
    have h1 : bv1 = .null := buildValueF_scalar_pass hty htr harr hobj hstr
      (fun hc => JsVal.noConfusion hc) hbv1
    subst h1
    have h2 : bv2 = .null := buildValueF_scalar_pass hty htr harr hobj hstr
      (fun hc => JsVal.noConfusion hc) hbv2
    subst h2
    exact hlk
  · intro hc
    exact JsVal.noConfusion hc

/-- Witness for C6 at `c6cls`: the absent optional `x` is present on the
instance as `undefined`, while an explicit `null` stays `null`. -/
theorem absent_props_bound_to_undefined_witness :
    jsLookup [("x", JsVal.undef)] "x" = some JsVal.undef ∧
    jsLookup [("x", JsVal.null)] "x" = some JsVal.null := by
  have h := absent_props_bound_to_undefined
  refine ⟨?_, ?_⟩
  · exact h.1 c6cls "x" [("type", .str "number")] [] 5 [("x", .undef)]
      rfl rfl rfl rfl rfl rfl
  · exact h.2.1 c6cls "x" [("type", .str "number")] "number" [("x", .null)] 5
      [("x", .null)] rfl rfl rfl (by decide) (by decide) (by decide) (by decide)
      rfl rfl

/-- C7. An exception escaping a value computation during build is stamped
with the dotted/bracketed path of the innermost failing location, seeded
at `$`: in the test-suite scenario — a throwing function default inside
element 2 of a 3-element array — construction fails with the original
message and traceback `$.items[2].dynamic`; the first catch stamps an
unstamped error with the current path and every later catch re-propagates
an already stamped error unchanged (message and first stamp kept). -/
theorem build_error_innermost_path :
    newModelF 20 tbCls (.obj [("items", .arr [.obj [("dynamic", .num 1)],
        .obj [("dynamic", .num 2)], .obj []])])
      = .err { msg := "Failed", traceback := some "$.items[2].dynamic" } ∧
    (∀ (name msg : String),
      stampTb name (.err { msg := msg, traceback := none } : Res JsVal)
        = .err { msg := msg, traceback := some name }) ∧
    (∀ (name msg p : String),
      stampTb name (.err { msg := msg, traceback := some p } : Res JsVal)
        = .err { msg := msg, traceback := some p }) :=
  ⟨rfl, fun _ _ => rfl, fun _ _ _ => rfl⟩

/-- In the ANY pattern (no effective properties, `additionalProperties`
not `false`), `setValues` takes the pass-through branch and just spreads
the given values over the current fields. -/
theorem setValuesCoreF_any {f : Nat} {m : ModelCls}
    {cur vs flds : List (String × JsVal)}
    (hp : allProps m = [])
    (hprops : (sGet0 (.obj (docBase m)) "properties").truthy = false)
    (hap : isFalseV (sGet0 (.obj (docBase m)) "additionalProperties") = false)
    (h : setValuesCoreF f m cur (.obj vs) = .ok flds) :
    flds = jsSpread cur vs := by
  cases f with
  | zero => simp [setValuesCoreF] at h
  | succ f =>
    simp only [setValuesCoreF, Res.bind_eq_bind] at h
    rw [Res.bind_eq_ok] at h
    obtain ⟨s, hs, h⟩ := h
    have hsd := getSchemaF_ok_empty hs hp
    subst hsd
    simp only [sGetE_obj, Res.bind_ok] at h
    have hc : (!((jsLookup (docBase m) "properties").getD .undef).truthy
        && !(isFalseV ((jsLookup (docBase m) "additionalProperties").getD
          .undef))) = true := by
      rw [show ((jsLookup (docBase m) "properties").getD JsVal.undef)
          = sGet0 (.obj (docBase m)) "properties" from rfl,
        show ((jsLookup (docBase m) "additionalProperties").getD JsVal.undef)
          = sGet0 (.obj (docBase m)) "additionalProperties" from rfl,
        hprops, hap]
      rfl
    rw [if_pos hc] at h
    rw [show jsEntriesE (JsVal.obj vs) = Res.ok vs from rfl] at h
    simp only [Res.bind_ok] at h
    injection h with h
    exact h.symm

/-- C10. For a model with no effective properties whose derived document's
`additionalProperties` is not `false` (the ANY pattern), construction,
`setValues` and serialization pass the caller's values through:
construction collects exactly the input's entries (the input itself when
duplicate-free), `setValues` spreads the input over the instance's fields
so every input key appears with its value, and serialization returns the
instance's own fields unchanged. -/
theorem any_pattern_passthrough (m : ModelCls)
    (hp : allProps m = [])
    (hprops : (sGet0 (.obj (docBase m)) "properties").truthy = false)
    (hap : isFalseV (sGet0 (.obj (docBase m)) "additionalProperties") = false) :
    (∀ f vs r, newModelF f m (.obj vs) = .ok r →
      r = .inst m (fromEntries vs) ∧ (NodupKeys vs → r = .inst m vs)) ∧
    (∀ f fields vs r, setValuesF f (.inst m fields) (.obj vs) = .ok r →
      r = .inst m (jsSpread fields vs) ∧
      (∀ k v, NodupKeys vs → jsLookup vs k = some v →
        jsLookup (jsSpread fields vs) k = some v)) ∧
    (∀ f fields r, modelAsObjectF f (.inst m fields) = .ok r →
      r = .obj fields) := by
  have hc : (!((jsLookup (docBase m) "properties").getD .undef).truthy
      && !(isFalseV ((jsLookup (docBase m) "additionalProperties").getD
        .undef))) = true := by
    rw [show ((jsLookup (docBase m) "properties").getD JsVal.undef)
        = sGet0 (.obj (docBase m)) "properties" from rfl,
      show ((jsLookup (docBase m) "additionalProperties").getD JsVal.undef)
        = sGet0 (.obj (docBase m)) "additionalProperties" from rfl,
      hprops, hap]
    rfl
  refine ⟨?_, ?_, ?_⟩
  · intro f vs r h
    cases f with
    | zero => simp [newModelF] at h
    | succ f =>
      simp only [newModelF, Res.bind_eq_bind] at h
      rw [show (if (JsVal.obj vs).truthy then JsVal.obj vs else .obj [])
          = .obj vs from rfl] at h
      rw [Res.bind_eq_ok] at h
      obtain ⟨s, hs, h⟩ := h
      have hsd := getSchemaF_ok_empty hs hp
      subst hsd
      rw [Res.bind_eq_ok] at h
      obtain ⟨processed, hproc, h⟩ := h
      cases f with
      | zero => simp [buildObjectF] at hproc
      | succ f2 =>
        simp only [buildObjectF, sGetE_obj, Res.bind_eq_bind,
          Res.bind_ok] at hproc
        rw [if_pos hc] at hproc
        injection hproc with hproc
        subst hproc
        rw [Res.bind_eq_ok] at h
        obtain ⟨fields, hflds, h⟩ := h
        injection h with h
        have := setValuesCoreF_any hp hprops hap hflds
        subst this
        constructor
        · rw [← h]
          rfl
        · intro hnd
          rw [← h, show jsSpread [] vs = fromEntries vs from rfl,
            fromEntries_eq_self hnd]
  · intro f fields vs r h
    simp only [setValuesF, Res.bind_eq_bind] at h
    rw [Res.bind_eq_ok] at h
    obtain ⟨flds2, hflds, h⟩ := h
    injection h with h
    have := setValuesCoreF_any hp hprops hap hflds
    subst this
    refine ⟨h.symm, ?_⟩
    intro k v hnd hv
    exact lookup_jsSpread_mem _ _ _ _ hnd hv
  · intro f fields r h
    cases f with
    | zero => simp [modelAsObjectF] at h
    | succ f =>
      simp only [modelAsObjectF, Res.bind_eq_bind] at h
      rw [Res.bind_eq_ok] at h
      obtain ⟨s, hs, h⟩ := h
      have hsd := getSchemaF_ok_empty hs hp
      subst hsd
      simp only [sGetE_obj, Res.bind_ok] at h
      rw [if_pos hc] at h
      injection h with h
      exact h.symm

/-- Witness for C10 at `anyCls`: two arbitrary keys pass through
construction, `setValues` overlays its input, and serialization returns
the fields. -/
theorem any_pattern_passthrough_witness :
    (JsVal.inst anyCls [("a", JsVal.num 1), ("b", JsVal.str "x")]
      = .inst anyCls [("a", .num 1), ("b", .str "x")]) ∧
    (JsVal.inst anyCls [("a", JsVal.num 1), ("b", JsVal.null)]
      = .inst anyCls (jsSpread [("a", .num 1)] [("b", .null)])) ∧
    (JsVal.obj [("a", JsVal.num 1), ("b", JsVal.str "x")]
      = .obj [("a", .num 1), ("b", .str "x")]) := by
  have h := any_pattern_passthrough anyCls rfl rfl rfl
  refine ⟨?_, ?_, ?_⟩
  · exact (h.1 6 [("a", .num 1), ("b", .str "x")]
      (.inst anyCls [("a", .num 1), ("b", .str "x")]) rfl).2
      (by decide : (keysOf [("a", JsVal.num 1), ("b", JsVal.str "x")]).Nodup)
  · exact (h.2.1 6 [("a", .num 1)] [("b", .null)]
      (.inst anyCls [("a", .num 1), ("b", .null)]) rfl).1
  · exact h.2.2 6 [("a", .num 1), ("b", .str "x")]
      (.obj [("a", .num 1), ("b", .str "x")]) rfl

/-- C8. `setValues` on an existing instance assigns only own-key,
non-read-only input properties: the class is unchanged; a property whose
key the partial input lacks keeps its current value (in particular no
schema default is ever applied for it); a read-only declared property
keeps its current value even when supplied; and a non-read-only declared
property present in the input is assigned its `buildValue` conversion. -/
theorem setValues_partial_frame (m : ModelCls)
    (fields vs : List (String × JsVal)) (f : Nat) (m2 : ModelCls)
    (fields2 : List (String × JsVal))
    (h : setValuesF f (.inst m fields) (.obj vs) = .ok (.inst m2 fields2)) :
    m2 = m ∧
    (∀ k, jsLookup vs k = none → jsLookup fields2 k = jsLookup fields k) ∧
    (∀ k ps, jsLookup (allProps m) k = some ps →
      (sGet0 ps "readOnly").truthy = true →
      jsLookup fields2 k = jsLookup fields k) ∧
    (∀ k ps w, jsLookup (allProps m) k = some ps →
      (sGet0 ps "readOnly").truthy = false →
      jsLookup vs k = some w →
      ∃ fb bv, buildValueF fb ("$" ++ "." ++ k) ps w [("#", m)] = .ok bv ∧
        jsLookup fields2 k = some bv) := by
  simp only [setValuesF, Res.bind_eq_bind] at h
  rw [Res.bind_eq_ok] at h
  obtain ⟨flds2, hsv, h⟩ := h
  injection h with h
  injection h with hm2 hf2
  subst hf2
  refine ⟨hm2.symm, ?_, ?_, ?_⟩
  · intro k hk
    obtain ⟨pE, hkeys, hflds⟩ := setValuesCoreF_pentries hsv
    subst hflds
    apply lookup_foldl_jsSet_not_mem
    intro hc
    have := hkeys k hc
    rw [hasOwn0_obj_false hk] at this
    cases this
  · intro k ps hk hro
    have hne : allProps m ≠ [] := by
      intro hc
      rw [hc] at hk
      simp at hk
    obtain ⟨fb, out, hnd, hbp, hspread⟩ := setValuesCoreF_declared hne hsv
    have hk2 : k ∉ keysOf ((allProps m).filter
        (fun e => hasOwn0 (.obj vs) e.1 && !(sGet0 e.2 "readOnly").truthy)) := by
      apply keysOf_filter_not_mem (nodupKeys_allProps m) hk
      rw [hro]
      simp
    have hkout : k ∉ keysOf out := by
      intro hc
      rcases buildPropsF_keys hbp hc with h1 | h2
      · simp [keysOf] at h1
      · exact hk2 h2
    rw [hspread, lookup_jsSpread_not_mem _ _ _ hkout]
  · intro k ps w hk hro hin
    have hne : allProps m ≠ [] := by
      intro hc
      rw [hc] at hk
      simp at hk
    obtain ⟨fb, out, hnd, hbp, hspread⟩ := setValuesCoreF_declared hne hsv
    have hmem : (k, ps) ∈ (allProps m).filter
        (fun e => hasOwn0 (.obj vs) e.1 && !(sGet0 e.2 "readOnly").truthy) := by
      apply mem_filter_of_lookup hk
      show (hasOwn0 (JsVal.obj vs) k && !(sGet0 ps "readOnly").truthy) = true
      rw [hro, hasOwn0_of_lookup hin]
      rfl
    obtain ⟨fb2, v2, bv, hv2, hbv, hout⟩ := buildPropsF_content
      (nodupKeys_filter _ (nodupKeys_allProps m)) hmem hbp
    have hv2' : v2 = w := by
      rw [show jsIndexE (JsVal.obj vs) k = .ok ((jsLookup vs k).getD .undef)
          from rfl, hin] at hv2
      injection hv2 with hv2
      exact hv2.symm
    subst hv2'
    refine ⟨fb2, bv, hbv, ?_⟩
    rw [hspread]
    exact lookup_jsSpread_mem _ _ _ _ hnd hout

/-- Witness for C8 at a `User` instance: updating `surname` leaves `name`
(absent from the input) and the read-only `fullName` untouched while
`surname` is assigned. -/
theorem setValues_partial_frame_witness :
    setValuesF 10 (.inst userCls [("name", .str "John"), ("surname", .str "Doe")])
      (.obj [("surname", .str "Smith"), ("fullName", .str "X")])
      = .ok (.inst userCls [("name", .str "John"), ("surname", .str "Smith")]) ∧
    jsLookup [("name", JsVal.str "John"), ("surname", JsVal.str "Smith")] "name"
      = jsLookup [("name", JsVal.str "John"), ("surname", JsVal.str "Doe")] "name" ∧
    jsLookup [("name", JsVal.str "John"), ("surname", JsVal.str "Smith")] "fullName"
      = jsLookup [("name", JsVal.str "John"), ("surname", JsVal.str "Doe")] "fullName" := by
  have h := setValues_partial_frame userCls
    [("name", .str "John"), ("surname", .str "Doe")]
    [("surname", .str "Smith"), ("fullName", .str "X")] 10 userCls
    [("name", .str "John"), ("surname", .str "Smith")] rfl
  exact ⟨rfl, h.2.1 "name" rfl,
    h.2.2.1 "fullName" (.obj [("type", .str "string"), ("readOnly", .bool true)])
      rfl rfl⟩

/-- C2. In the validate-then-build variant (the spec's chosen target), a
raw input mapping holding only keys the model type does not declare,
against a derived schema with `additionalProperties: false` and a
non-empty declared property set, makes construction fail eagerly with the
validation failure carrying the validator's error list — one
`additionalProperty` error per unrecognized key — before any build step
runs. -/
theorem eager_validation_unknown_keys (m : ModelCls)
    (vs ps : List (String × JsVal)) (f : Nat) (s : JsVal)
    (hsch : getSchemaV1F f m false = .ok s)
    (hprops : sGetE s "properties" = .ok (.obj ps))
    (haddl : sGetE s "additionalProperties" = .ok (.bool false))
    (hne : ps ≠ [])
    (hvs : vs ≠ [])
    (hunk : ∀ k, k ∈ keysOf vs → k ∉ keysOf ps) :
    newModelV1F (f + 2) m (.obj vs)
      = .validation (.obj vs) ((keysOf vs).map addlPropErr) ∧
    (keysOf vs).map addlPropErr ≠ [] := by
  have herrs : jsonschemaErrors (keysOf ps) (.bool false) vs
      = (keysOf vs).map addlPropErr := by
    unfold jsonschemaErrors
    rw [if_pos (show isFalseV (.bool false) = true from rfl)]
    have hfil : vs.filter (fun e => !(decide (e.1 ∈ keysOf ps))) = vs := by
      apply List.filter_eq_self.mpr
      intro e he
      have hk : e.1 ∈ keysOf vs := List.mem_map.mpr ⟨e, he, rfl⟩
      simp [hunk e.1 hk]
    rw [hfil]
    unfold keysOf
    rw [List.map_map]
    rfl
  have hmapne : (keysOf vs).map addlPropErr ≠ [] := by
    intro hc
    cases vs with
    | nil => exact hvs rfl
    | cons e rest => simp [keysOf] at hc
  have hval : validateCoreV1F (f + 1) m (.obj vs)
      = .ok (some ((keysOf vs).map addlPropErr)) := by
    simp only [validateCoreV1F, hsch, V1Res.vbind_eq_bind, V1Res.vbind_ok,
      hprops, haddl, V1Res.ofRes_ok,
      show jsEntriesE (JsVal.obj ps) = .ok ps from rfl,
      show jsEntriesE (JsVal.obj vs) = .ok vs from rfl, herrs]
    have hie : ((keysOf vs).map addlPropErr).isEmpty = false := by
      simp [List.isEmpty_iff, hmapne]
    rw [hie]
    rfl
  refine ⟨?_, hmapne⟩
  show newModelV1F ((f + 1) + 1) m (.obj vs) = _
  simp only [newModelV1F, V1Res.vbind_eq_bind]
  rw [show (if (JsVal.obj vs).truthy then JsVal.obj vs else JsVal.obj [])
      = JsVal.obj vs from rfl]
  rw [hval, V1Res.vbind_ok]

/-- Witness for C2: constructing `One` from `\x7bfoo: 1\x7d` (only an
unrecognized key) fails with the validation failure carrying the one
`additionalProperty` error for `foo`. -/
theorem eager_validation_unknown_keys_witness :
    newModelV1F 5 c6cls (.obj [("foo", .num 1)])
      = .validation (.obj [("foo", .num 1)]) [addlPropErr "foo"] := by
  have h := eager_validation_unknown_keys c6cls [("foo", .num 1)]
    [("x", .obj [("type", .str "number")])] 3
    (.obj [("$schema", .str metaSchemaURI), ("$id", .str "One"),
      ("type", .str "object"),
      ("properties", .obj [("x", .obj [("type", .str "number")])]),
      ("additionalProperties", .bool false)])
    rfl rfl rfl (fun hc => List.noConfusion hc) (fun hc => List.noConfusion hc)
    (by decide)
  exact h.1

/-- C9, counterexample. Build ∘ serialize ∘ build is not idempotent: for a
string-typed property holding a non-string value (here from its declared
default `5`), serialization coerces the value through the generic string
conversion, so rebuilding from the serialized object yields an instance
whose observable property is the string `"5"`, not the original number
`5`. -/
theorem build_serialize_build_coercion :
    newModelF 8 c9cls (.obj []) = .ok (.inst c9cls [("x", .num 5)]) ∧
    modelAsObjectF 8 (.inst c9cls [("x", .num 5)]) = .ok (.obj [("x", .str "5")]) ∧
    newModelF 8 c9cls (.obj [("x", .str "5")]) = .ok (.inst c9cls [("x", .str "5")]) ∧
    JsVal.num 5 ≠ JsVal.str "5" :=
  ⟨rfl, rfl, rfl, fun hc => JsVal.noConfusion hc⟩

/-- C9 (amended). Build ∘ serialize ∘ build round-trips each scalar-kind
property: for a non-read-only property whose `type` is a non-empty string
other than `array`, `object`, `string` (and not a model class), building,
serializing and rebuilding reproduces the instance's value for it. The
claim's unrestricted idempotence fails for string-typed properties
holding non-string values, which the serializer coerces to strings. -/
theorem build_serialize_build_scalar_roundtrip (m : ModelCls) (k : String)
    (pl vs out flds flds2 : List (String × JsVal)) (ty : String)
    (f g h : Nat)
    (hk : jsLookup (allProps m) k = some (.obj pl))
    (hro : (sGet0 (.obj pl) "readOnly").truthy = false)
    (hty : sGet0 (.obj pl) "type" = .str ty)
    (htr : ty ≠ "") (harr : ty ≠ "array") (hobj : ty ≠ "object")
    (hstr : ty ≠ "string")
    (h1 : newModelF f m (.obj vs) = .ok (.inst m flds))
    (h2 : modelAsObjectF g (.inst m flds) = .ok (.obj out))
    (h3 : newModelF h m (.obj out) = .ok (.inst m flds2)) :
    jsLookup flds2 k = jsLookup flds k := by
  have hne : allProps m ≠ [] := by
    intro hc
    rw [hc] at hk
    simp at hk
  obtain ⟨f1, f2, bv1, bv2, hbv1, hbv2, hlk⟩ := newModelF_prop_value hk hro h1
  obtain ⟨g2, out', hsp, hro'⟩ := modelAsObjectF_declared hne h2
  injection hro' with hout'
  subst hout'
  obtain ⟨fv, pr, hpr, hok⟩ := serializePropsF_content (nodupKeys_allProps m)
    (lookup_mem hk) hsp
  rw [hlk] at hpr
  simp only [Option.getD_some] at hpr
  have hpr2 : pr = bv2 := serializeValF_scalar hty hstr hpr
  rw [hpr2] at hok
  obtain ⟨f1', f2', bv1', bv2', hbv1', hbv2', hlk2⟩ := newModelF_prop_value hk hro h3
  rw [hok] at hbv1'
  simp only [Option.getD_some] at hbv1'
  rw [hlk]
  by_cases hbu : bv2 = .undef
  · subst hbu
    have hs1 := buildValueF_scalar_undef hty htr harr hobj hstr hbv1'
    by_cases hb1 : bv1 = .undef
    · subst hb1
      have hs0 := buildValueF_scalar_undef hty htr harr hobj hstr hbv2
      rw [hs0] at hs1
      injection hs1 with hs1
      subst hs1
      have hs2 := buildValueF_scalar_undef hty htr harr hobj hstr hbv2'
      rw [hs0] at hs2
      injection hs2 with hs2
      rw [hlk2, ← hs2]
    · have := buildValueF_scalar_pass hty htr harr hobj hstr hb1 hbv2
      exact absurd this.symm hb1
  · have hb1' : bv1' = bv2 :=
      buildValueF_scalar_pass hty htr harr hobj hstr hbu hbv1'
    subst hb1'
    have hb2' : bv2' = bv1' :=
      buildValueF_scalar_pass hty htr harr hobj hstr hbu hbv2'
    rw [hlk2, hb2']

/-- Witness for the amended C9 at the number-typed `One` model: building
from `\x7bx: 7\x7d`, serializing and rebuilding reproduces the value. -/
theorem build_serialize_build_scalar_roundtrip_witness :
    jsLookup [("x", JsVal.num 7)] "x" = jsLookup [("x", JsVal.num 7)] "x" := by
  exact build_serialize_build_scalar_roundtrip c6cls "x"
    [("type", .str "number")] [("x", .num 7)] [("x", .num 7)]
    [("x", .num 7)] [("x", .num 7)] "number" 6 6 6
    rfl rfl rfl (by decide) (by decide) (by decide) (by decide) rfl rfl rfl
